import Mathlib

/-!
Verification development for the codemap incremental staleness/caching engine
(repository Someblueman/codemap).

The Go sources are shallowly embedded: pure Go functions become Lean
functions; filesystem access becomes explicit oracles passed as arguments
(a content oracle of type String to Option (List Char), a stat oracle, a
root-directory listing); Go int64 values are modelled as Int; fallible Go
code returns Option (none is the error / absent case).  The crypto/sha256
digest used by the engine is an external library primitive, so every
hashing definition is parameterised over an abstract digest function
sha : List Char to String (the engine feeds it the exact byte stream the Go
code writes into the sha256 accumulator, modelled as a character list).
-/

/-- Digest function abstraction for crypto/sha256: maps the written byte
stream (modelled as a character list) to a hex digest string. -/
def HashFn : Type := List Char → String

/-- The zero byte used by the engine as a separator between hashed fields. -/
def nulChar : Char := Char.ofNat 0

/-- One (relPath, contentHash) pair as written to the sha256 accumulator
in source order: relPath bytes, a zero byte, contentHash bytes, a zero byte.
This mirrors the write sequence in computeAggregateHash /
computeAggregateHashOnly (internal/codemap, state engine) and in
packageFingerprint. -/
def encodePairs : List (String × String) → List Char
  | [] => []
  | p :: ps => p.1.data ++ nulChar :: (p.2.data ++ nulChar :: encodePairs ps)

/-- A string that contains no zero byte (true of file paths and hex digests;
used for the injectivity of the separator encoding). -/
def nulFree (s : String) : Prop := nulChar ∉ s.data

/-- All components of a pair list are free of zero bytes. -/
def nulFreePairs (l : List (String × String)) : Prop :=
  ∀ p ∈ l, nulFree p.1 ∧ nulFree p.2

/- ### Language layer (language.go / unnamed part_014, package codemap) -/

def languageGo : String := "go"

def languagePython : String := "python"

def languageRust : String := "rust"

def languageShell : String := "shell"

def languageTypeScript : String := "typescript"

/-- LanguageSpec describes source file matching rules for a language. -/
structure LanguageSpec where
  id : String
  fileSuffixes : List String
  testFileSuffixes : List String
deriving DecidableEq, Repr

/-- languageMatch is the result of matching a path against language rules. -/
structure languageMatch where
  id : String
  isTest : Bool
deriving DecidableEq, Repr

/-- strings.ToLower restricted to ASCII letters (the only characters the
suffix tables contain). -/
def toLowerStr (s : String) : String := String.mk (s.data.map Char.toLower)

/-- strings.HasSuffix. -/
def strEndsWith (s suffix : String) : Bool := suffix.data.isSuffixOf s.data

/-- strings.Contains. -/
def strContains (s sub : String) : Bool := s.data.tails.any (fun t => sub.data.isPrefixOf t)

/-- strings.HasPrefix. -/
def strStartsWith (s pre : String) : Bool := pre.data.isPrefixOf s.data

/-- Go byte-wise lexicographic string comparison, on the character lists. -/
def listCharLtb : List Char → List Char → Bool
  | [], [] => false
  | [], _ :: _ => true
  | _ :: _, [] => false
  | a :: as, b :: bs =>
    if a.toNat < b.toNat then true
    else if b.toNat < a.toNat then false
    else listCharLtb as bs

/-- Go string comparison a < b. -/
def strLtb (a b : String) : Bool := listCharLtb a.data b.data

/-- Go string comparison a <= b. -/
def strLeb (a b : String) : Bool := !(strLtb b a)

/-- Drop trailing '/' characters (helper for filepath.Base). -/
def dropTrailingSlashes (cs : List Char) : List Char :=
  ((cs.reverse).dropWhile (fun c => c = '/')).reverse

/-- filepath.Base on slash-separated paths: empty input gives ".", an
all-slash input gives "/", otherwise the component after the last slash
once trailing slashes are removed. -/
def goBasename (s : String) : String :=
  if s = "" then "."
  else
    let cs := dropTrailingSlashes s.data
    if cs = [] then "/"
    else String.mk (((cs.reverse).takeWhile (fun c => c ≠ '/')).reverse)

def goSpec : LanguageSpec := ⟨languageGo, [".go"], ["_test.go"]⟩

def pythonSpec : LanguageSpec :=
  ⟨languagePython, [".py"], ["_test.py", ".test.py", ".spec.py"]⟩

def rustSpec : LanguageSpec := ⟨languageRust, [".rs"], ["_test.rs"]⟩

def shellSpec : LanguageSpec :=
  ⟨languageShell, [".sh", ".bash", ".bats"],
    ["_test.sh", ".test.sh", ".spec.sh", "_test.bash", ".test.bash", ".spec.bash", ".bats"]⟩

def typescriptSpec : LanguageSpec :=
  ⟨languageTypeScript, [".ts", ".tsx", ".mts", ".cts"],
    [".test.ts", ".spec.ts", ".test.tsx", ".spec.tsx", ".test.mts", ".spec.mts",
      ".test.cts", ".spec.cts"]⟩

/-- allBuiltinLanguageSpecs: the builtin table, sorted by language id
(go < python < rust < shell < typescript). -/
def allBuiltinLanguageSpecs : List LanguageSpec :=
  [goSpec, pythonSpec, rustSpec, shellSpec, typescriptSpec]

/-- isPythonTestPathLike (part_014). -/
def isPythonTestPathLike (path : String) : Bool :=
  let base := toLowerStr (goBasename (toLowerStr path))
  strEndsWith base "_test.py" || strEndsWith base ".test.py" || strEndsWith base ".spec.py" ||
    (strEndsWith base ".py" && strStartsWith base "test_")

/-- isShellTestPathLike (part_014). -/
def isShellTestPathLike (path : String) : Bool :=
  let base := toLowerStr (goBasename (toLowerStr path))
  if strEndsWith base ".bats" then true
  else
    strEndsWith base "_test.sh" || strEndsWith base ".test.sh" || strEndsWith base ".spec.sh" ||
      strEndsWith base "_test.bash" || strEndsWith base ".test.bash" ||
      strEndsWith base ".spec.bash" ||
      ((strEndsWith base ".sh" || strEndsWith base ".bash") && strStartsWith base "test_")

/-- hasAnySuffix (part_014): the spec tables are already lowercase, so the
per-suffix lowering in the source is the identity there. -/
def hasAnySuffix (value : String) (suffixes : List String) : Bool :=
  suffixes.any (fun suffix => strEndsWith value (toLowerStr suffix))

/-- matchBuiltinLanguageForPath (part_014): suffix dispatch over the
lowercased basename. -/
def matchBuiltinLanguageForPath (path : String) : Option languageMatch :=
  let name := toLowerStr (goBasename path)
  if strEndsWith name ".go" then
    some ⟨languageGo, strEndsWith name "_test.go"⟩
  else if strEndsWith name ".py" then
    some ⟨languagePython, isPythonTestPathLike name⟩
  else if strEndsWith name ".rs" then
    some ⟨languageRust, strEndsWith name "_test.rs"⟩
  else if strEndsWith name ".sh" || strEndsWith name ".bash" || strEndsWith name ".bats" then
    some ⟨languageShell, isShellTestPathLike name⟩
  else if strEndsWith name ".ts" || strEndsWith name ".tsx" || strEndsWith name ".mts" ||
      strEndsWith name ".cts" then
    some ⟨languageTypeScript, hasAnySuffix name typescriptSpec.testFileSuffixes⟩
  else none

/-- languageEnabled (part_014). -/
def languageEnabled (specs : List LanguageSpec) (id : String) : Bool :=
  specs.any (fun spec => spec.id = id)

/-- matchLanguageForPath (part_014): builtin dispatch first (gated by the
enabled set), then the generic suffix loop. -/
def matchLanguageForPath (path : String) (specs : List LanguageSpec) : Option languageMatch :=
  match matchBuiltinLanguageForPath path with
  | some builtinMatch =>
    if languageEnabled specs builtinMatch.id then some builtinMatch else none
  | none =>
    let name := toLowerStr (goBasename path)
    specs.findSome? (fun spec =>
      if spec.fileSuffixes.any (fun suffix => strEndsWith name (toLowerStr suffix)) then
        some ⟨spec.id, hasAnySuffix name spec.testFileSuffixes⟩
      else none)

/- ### Shebang detection (internal/codemap/language_detect.go) -/

/-- unicode.IsSpace restricted to the ASCII whitespace characters. -/
def isSpaceChar (c : Char) : Bool :=
  c = ' ' || c = '\t' || c = '\n' || c = '\r' || c = Char.ofNat 11 || c = Char.ofNat 12

/-- strings.TrimSpace on a character list. -/
def trimChars (cs : List Char) : List Char :=
  ((cs.dropWhile isSpaceChar).reverse.dropWhile isSpaceChar).reverse

/-- strings.Fields on a character list: maximal runs of non-whitespace. -/
def fieldsChars : List Char → List (List Char)
  | [] => []
  | c :: cs =>
    if isSpaceChar c then fieldsChars cs
    else
      match cs with
      | [] => [[c]]
      | d :: _ =>
        if isSpaceChar d then [c] :: fieldsChars cs
        else
          match fieldsChars cs with
          | [] => [[c]]
          | f :: fs => (c :: f) :: fs

/-- readShebangProgram (language_detect.go): reads the first line of the
file (the source uses a 256-byte buffered reader, so a newline-less first
line is truncated to 256 bytes), requires a "#!" lead, splits the rest into
fields, resolves an env indirection skipping "-" flag arguments, and lowers
the result.  The file content is an oracle value: outer none is an open
error, inner none is "no shebang program". -/
def readShebangProgram (content : Option (List Char)) : Option (Option String) :=
  match content with
  | none => none
  | some cs =>
    let line := trimChars ((cs.take 256).takeWhile (fun c => c ≠ '\n'))
    if ('#' :: '!' :: []).isPrefixOf line then
      let fields := fieldsChars (trimChars (line.drop 2))
      match fields with
      | [] => some none
      | f0 :: rest =>
        let program0 := goBasename (String.mk f0)
        let program1 :=
          if program0 = "env" then
            match rest.dropWhile (fun f => f.head? = some '-') with
            | [] => ""
            | f :: _ => goBasename (String.mk f)
          else program0
        let program := toLowerStr (String.mk (trimChars program1.data))
        if program = "" then some none else some (some program)
    else some none

/-- detectLanguageForFile (language_detect.go): suffix rules first, then the
shell shebang fallback for extension-less files.  disk is the file-content
oracle keyed by absolute path; outer none is an I/O error, inner none is
"no language matched". -/
def detectLanguageForFile (disk : String → Option (List Char)) (absPath candidatePath : String)
    (specs : List LanguageSpec) : Option (Option languageMatch) :=
  match matchLanguageForPath candidatePath specs with
  | some m => some (some m)
  | none =>
    if !languageEnabled specs languageShell then some none
    else
      let base := toLowerStr (goBasename candidatePath)
      if strContains base "." then some none
      else
        match readShebangProgram (disk absPath) with
        | none => none
        | some none => some none
        | some (some program) =>
          if program = "sh" || program = "bash" then
            some (some ⟨languageShell, isShellTestPathLike base⟩)
          else some none

/- ### Persistent state model (internal/codemap state engine, version 4) -/

def codemapStateVersion : Int := 4

def analysisCacheVersionV2 : Int := 2

/-- StateEntry stores per-file metadata for incremental hashing. -/
structure StateEntry where
  relPath : String
  size : Int
  modTimeUnixNano : Int
  contentHash : String
  language : String
  isTest : Bool
deriving DecidableEq, Repr

/-- DirStateEntry stores per-directory metadata for fast stale checks. -/
structure DirStateEntry where
  relPath : String
  modTimeUnixNano : Int
deriving DecidableEq, Repr

/-- File (types.go): per-file detail embedded in a Package. -/
structure File where
  name : String
  lineCount : Int
  purpose : String
  keyTypes : List String
  keyFuncs : List String
deriving DecidableEq, Repr

/-- TypeInfo (types.go). -/
structure TypeInfo where
  name : String
  kind : String
  comment : String
deriving DecidableEq, Repr

/-- Package (types.go): the per-unit analysis result. -/
structure Package where
  importPath : String
  relativePath : String
  purpose : String
  fileCount : Int
  lineCount : Int
  files : List File
  exportedTypes : List TypeInfo
  imports : List String
  entryPoint : String
deriving DecidableEq, Repr

/-- CachedPackage stores package-level analysis output for incremental
rebuilds. -/
structure CachedPackage where
  relativePath : String
  fingerprint : String
  fileRelPaths : List String
  package : Package
deriving DecidableEq, Repr

/-- AnalysisCache stores cached package analysis metadata, scoped by the
options that affect analysis output. -/
structure AnalysisCache where
  version : Int
  includeTests : Bool
  largePackageFiles : Int
  modulePath : String
  packages : List CachedPackage
deriving DecidableEq, Repr

/-- CodemapState stores local cache metadata for staleness checks. -/
structure CodemapState where
  version : Int
  aggregateHash : String
  rootEntries : List String
  dirs : List DirStateEntry
  entries : List StateEntry
  analysis : Option AnalysisCache
deriving DecidableEq, Repr

/-- Options (types.go), restricted to the fields consumed by the staleness
and analysis-cache paths. -/
structure Options where
  includeTests : Bool
  largePackageFiles : Int
deriving DecidableEq, Repr

/- ### Snapshot model (unnamed part_008, BuildFileIndexWithLanguages) -/

/-- FileRecord describes a discovered file in the project tree. -/
structure FileRecord where
  absPath : String
  relPath : String
  size : Int
  modTimeUnixNano : Int
  language : String
  isGo : Bool
  isTest : Bool
deriving DecidableEq, Repr

/-- DirRecord describes a discovered directory in the project tree. -/
structure DirRecord where
  relPath : String
  modTimeUnixNano : Int
deriving DecidableEq, Repr

/-- FileIndex is a deterministic snapshot of files under a project root. -/
structure FileIndex where
  rootEntries : List String
  dirs : List DirRecord
  files : List FileRecord
deriving DecidableEq, Repr

/- ### Hash engine (internal/codemap state engine) -/

/-- hashFileContents: sha256 of the raw file bytes read from disk; none is
a read failure. -/
def hashFileContents (sha : HashFn) (disk : String → Option (List Char)) (path : String) :
    Option String :=
  (disk path).map sha

/-- sortedStateEntries: the previous entries when the state is usable. -/
def sortedStateEntries (prev : Option CodemapState) : List StateEntry :=
  match prev with
  | none => []
  | some p => if p.version ≠ codemapStateVersion ∨ p.entries = [] then [] else p.entries

/-- Boolean string comparison used by the entry cursor. -/
def relLtb (a b : String) : Bool := strLtb a b

/-- findCachedEntry: the forward-only cursor over the sorted previous
entries.  Returns the advanced cursor (the remaining suffix) together with
the entry found at the requested path, if any. -/
def findCachedEntry (rem : List StateEntry) (relPath : String) :
    List StateEntry × Option StateEntry :=
  match rem.dropWhile (fun e => relLtb e.relPath relPath) with
  | [] => ([], none)
  | e :: rest => (e :: rest, if e.relPath = relPath then some e else none)

/-- The per-file content hash: the cached hash when (size, modtime) match
and the cached hash is non-empty, otherwise a fresh hash of the file
contents (none on read failure). -/
def entryHashFor (sha : HashFn) (disk : String → Option (List Char)) (rec : FileRecord)
    (cand : Option StateEntry) : Option String :=
  match cand with
  | some e =>
    if e.size = rec.size ∧ e.modTimeUnixNano = rec.modTimeUnixNano ∧ e.contentHash ≠ "" then
      some e.contentHash
    else hashFileContents sha disk rec.absPath
  | none => hashFileContents sha disk rec.absPath

/-- The streaming loop of computeAggregateHashOnly: produces the
(relPath, contentHash) pairs written to the digest, advancing the cursor. -/
def hashOnlyLoop (sha : HashFn) (disk : String → Option (List Char)) :
    List FileRecord → List StateEntry → Option (List (String × String))
  | [], _ => some []
  | rec :: files, rem =>
    let fc := findCachedEntry rem rec.relPath
    match entryHashFor sha disk rec fc.2 with
    | none => none
    | some h => (hashOnlyLoop sha disk files fc.1).map (fun ps => (rec.relPath, h) :: ps)

/-- aggregateHashFromState: the in-memory fast path shared by both
recompute entry points — reuse the recorded aggregate when the previous
state is current-version, carries an aggregate and directory records, and
matches the index entry-for-entry on path, size and modtime with non-empty
content hashes. -/
def aggregateHashFromState (idx : FileIndex) (prev : Option CodemapState) :
    Option (String × CodemapState) :=
  match prev with
  | none => none
  | some p =>
    if p.version ≠ codemapStateVersion ∨ p.aggregateHash = "" then none
    else if p.dirs = [] then none
    else if idx.files.length ≠ p.entries.length then none
    else if (idx.files.zip p.entries).all (fun re =>
        re.1.relPath = re.2.relPath ∧ re.1.size = re.2.size ∧
          re.1.modTimeUnixNano = re.2.modTimeUnixNano ∧ re.2.contentHash ≠ "") then
      some (p.aggregateHash, p)
    else none

/-- computeAggregateHashOnly (state engine): aggregate hash without
building a new state. -/
def computeAggregateHashOnly (sha : HashFn) (disk : String → Option (List Char))
    (idx : FileIndex) (prev : Option CodemapState) : Option String :=
  match aggregateHashFromState idx prev with
  | some r => some r.1
  | none =>
    (hashOnlyLoop sha disk idx.files (sortedStateEntries prev)).map
      (fun ps => sha (encodePairs ps))

/-- The entry-building loop of computeAggregateHash: like hashOnlyLoop but
recording full state entries (hash jobs are modelled in submission order;
any failed hash aborts, as in the source where any job error aborts). -/
def recomputeEntries (sha : HashFn) (disk : String → Option (List Char)) :
    List FileRecord → List StateEntry → Option (List StateEntry)
  | [], _ => some []
  | rec :: files, rem =>
    let fc := findCachedEntry rem rec.relPath
    match entryHashFor sha disk rec fc.2 with
    | none => none
    | some h =>
      (recomputeEntries sha disk files fc.1).map
        (fun es => ⟨rec.relPath, rec.size, rec.modTimeUnixNano, h, rec.language, rec.isTest⟩ :: es)

/-- rootEntriesFromIndex. -/
def rootEntriesFromIndex (idx : FileIndex) : List String := idx.rootEntries

/-- dirStateFromIndex: directory records minus the root itself. -/
def dirStateFromIndex (idx : FileIndex) : List DirStateEntry :=
  (idx.dirs.filter (fun rec => rec.relPath ≠ ".")).map
    (fun rec => ⟨rec.relPath, rec.modTimeUnixNano⟩)

/-- The (relPath, contentHash) pairs of a state entry list. -/
def pairsOf (es : List StateEntry) : List (String × String) :=
  es.map (fun e => (e.relPath, e.contentHash))

/-- computeAggregateHash (state engine): the recompute operation, returning
the aggregate hash and the next state ready for persistence. -/
def computeAggregateHash (sha : HashFn) (disk : String → Option (List Char))
    (idx : FileIndex) (prev : Option CodemapState) : Option (String × CodemapState) :=
  match aggregateHashFromState idx prev with
  | some r => some r
  | none =>
    (recomputeEntries sha disk idx.files (sortedStateEntries prev)).map
      (fun es =>
        (sha (encodePairs (pairsOf es)),
          ⟨codemapStateVersion, sha (encodePairs (pairsOf es)), rootEntriesFromIndex idx,
            dirStateFromIndex idx, es, none⟩))

/- ### Tier-1 metadata-only check (aggregateHashFromFilesystemState) -/

/-- The result of an os.Lstat call on an existing path. -/
structure StatInfo where
  isDir : Bool
  size : Int
  modTimeUnixNano : Int
deriving DecidableEq, Repr

/-- filterRootEntries. -/
def filterRootEntries (entries : List String) (ignored : List String) : List String :=
  entries.filter (fun name => !ignored.contains name)

/-- rootEntriesMatchState: the current (sorted) root directory listing,
minus ignored self-generated outputs, must equal the persisted list. -/
def rootEntriesMatchState (rootNames : List String) (expected : List String)
    (ignored : List String) : Bool :=
  filterRootEntries expected ignored = filterRootEntries rootNames ignored

/-- directoryEntryMatches: stat the directory path (none = does not exist)
and compare kind and modtime. -/
def directoryEntryMatches (stat : String → Option StatInfo) (dir : DirStateEntry) : Bool :=
  match stat dir.relPath with
  | none => false
  | some info => info.isDir && info.modTimeUnixNano = dir.modTimeUnixNano

/-- directoriesMatchState (the parallel fan-out computes the same
conjunction). -/
def directoriesMatchState (stat : String → Option StatInfo) (dirs : List DirStateEntry) : Bool :=
  dirs.all (directoryEntryMatches stat)

/-- resolveStateEntryLanguage: recorded language tag, else builtin suffix
match on the relative path, else the shebang-sniffing detector (which reads
the file, so it can fail: outer none).  Inner none models the zero-valued
match (empty language id). -/
def resolveStateEntryLanguage (disk : String → Option (List Char)) (entry : StateEntry)
    (absPath : String) : Option (Option languageMatch) :=
  if entry.language ≠ "" then some (some ⟨entry.language, entry.isTest⟩)
  else
    match matchBuiltinLanguageForPath entry.relPath with
    | some m =>
      if m.id ≠ "" then some (some m)
      else detectFallback disk entry absPath
    | none => detectFallback disk entry absPath
where
  detectFallback (disk : String → Option (List Char)) (entry : StateEntry) (absPath : String) :
      Option (Option languageMatch) :=
    match detectLanguageForFile disk absPath entry.relPath allBuiltinLanguageSpecs with
    | none => none
    | some none => some none
    | some (some m) => if m.id = "" then some none else some (some m)

/-- fileEntryMatches: a persisted file entry is still valid when it carries
a content hash, the path still exists as a regular file, its language still
resolves, and size and modtime are unchanged.  Outer none is an I/O
error. -/
def fileEntryMatches (stat : String → Option StatInfo) (disk : String → Option (List Char))
    (entry : StateEntry) : Option Bool :=
  if entry.contentHash = "" then some false
  else
    match stat entry.relPath with
    | none => some false
    | some info =>
      if info.isDir then some false
      else
        match resolveStateEntryLanguage disk entry entry.relPath with
        | none => none
        | some none => some false
        | some (some m) =>
          if m.id = "" then some false
          else some (decide (info.size = entry.size ∧ info.modTimeUnixNano = entry.modTimeUnixNano))

/-- filesMatchState, sequential short-circuit form (the parallel fan-out in
the source computes the same conjunction). -/
def filesMatchState (stat : String → Option StatInfo) (disk : String → Option (List Char)) :
    List StateEntry → Option Bool
  | [] => some true
  | e :: es =>
    match fileEntryMatches stat disk e with
    | none => none
    | some false => some false
    | some true => filesMatchState stat disk es

/-- aggregateHashFromFilesystemState (state engine): the tier-1
metadata-only check.  The filesystem is presented through oracles: stat
(os.Lstat keyed by root-relative path), rootNames (the sorted os.ReadDir
listing of the root) and disk (file contents, for the language detector).
Returns none on I/O error, otherwise (hash, valid). -/
def aggregateHashFromFilesystemState (stat : String → Option StatInfo)
    (rootNames : List String) (disk : String → Option (List Char))
    (prev : Option CodemapState) (ignored : List String) : Option (String × Bool) :=
  match prev with
  | none => some ("", false)
  | some p =>
    if p.version ≠ codemapStateVersion ∨ p.aggregateHash = "" then some ("", false)
    else if p.rootEntries = [] then some ("", false)
    else if ¬ rootEntriesMatchState rootNames p.rootEntries ignored then some ("", false)
    else if ¬ directoriesMatchState stat p.dirs then some ("", false)
    else
      match filesMatchState stat disk p.entries with
      | none => none
      | some false => some ("", false)
      | some true => some (p.aggregateHash, true)

/- ### Generic insertion sort (models sort.Strings / sort.Slice calls) -/

def insertOrd {α : Type} (leb : α → α → Bool) (x : α) : List α → List α
  | [] => [x]
  | y :: ys => if leb x y then x :: y :: ys else y :: insertOrd leb x ys

def sortOrd {α : Type} (leb : α → α → Bool) : List α → List α
  | [] => []
  | x :: xs => insertOrd leb x (sortOrd leb xs)

/-- sort.Strings. -/
def sortStrings (l : List String) : List String := sortOrd strLeb l

/- ### Persisted cache readers (readState / readAnalysisCache) -/

/-- readState normalises a freshly parsed state: root entries, directory
entries, file entries and cached packages are sorted by path. -/
def sortStateForRead (st : CodemapState) : CodemapState :=
  { st with
    rootEntries := sortStrings st.rootEntries,
    dirs := sortOrd (fun a b => strLeb a.relPath b.relPath) st.dirs,
    entries := sortOrd (fun a b => strLeb a.relPath b.relPath) st.entries,
    analysis := st.analysis.map (fun c =>
      { c with packages := sortOrd (fun a b => strLeb a.relativePath b.relativePath) c.packages }) }

/-- readState (state engine).  memo is the process-wide read cache entry
for this path (some means a hit); fileData is the raw file bytes (none
means the file does not exist); parse models encoding/json.Unmarshal into
CodemapState (none is a parse failure).  The Except layer carries the
error return: the modelled paths never produce one. -/
def readState (memo : Option (Option CodemapState)) (fileData : Option (List Char))
    (parse : List Char → Option CodemapState) : Except String (Option CodemapState) :=
  match memo with
  | some cached => .ok cached
  | none =>
    match fileData with
    | none => .ok none
    | some data =>
      match parse data with
      | none => .ok none
      | some st =>
        if st.version ≠ codemapStateVersion then .ok none
        else .ok (some (sortStateForRead st))

/-- readAnalysisCache (state engine), same shape as readState for the
colder analysis-cache file. -/
def readAnalysisCache (memo : Option (Option AnalysisCache)) (fileData : Option (List Char))
    (parse : List Char → Option AnalysisCache) : Except String (Option AnalysisCache) :=
  match memo with
  | some cached => .ok cached
  | none =>
    match fileData with
    | none => .ok none
    | some data =>
      match parse data with
      | none => .ok none
      | some cache =>
        if cache.version ≠ analysisCacheVersionV2 then .ok none
        else
          .ok (some { cache with
            packages := sortOrd (fun a b => strLeb a.relativePath b.relativePath) cache.packages })

/- ### Debounced persistence (writeState / writeAnalysisCache) -/

/-- writeFlushInterval = 100 * time.Millisecond, in nanoseconds. -/
def writeFlushIntervalNanos : Int := 100000000

/-- The state written to disk: the analysis cache is kept out of the
hot-path state file. -/
def stripAnalysis (s : CodemapState) : CodemapState := { s with analysis := none }

/-- Observable effects of one writeState call. -/
structure WriteStateOutcome where
  memoUpdated : Bool
  memoValue : Option CodemapState
  flushed : Bool
  lastFlushAfter : Option Int
  pathContentAfter : Option String
  tmpContentAfter : Option String
deriving DecidableEq, Repr

/-- writeState (state engine): a nil state is a no-op; otherwise the
in-process cache is refreshed, then the flush is debounced per path — a
call within writeFlushInterval of the previous flush returns without
touching the disk or the flush clock; otherwise the marshalled bytes go to
path+".tmp" and are renamed over path.  now and the flush clock are
nanosecond timestamps; marshal models json.Marshal; diskPath / diskTmp are
the prior contents at path and path+".tmp". -/
def writeState (marshal : CodemapState → String) (st : Option CodemapState) (now : Int)
    (lastFlush : Option Int) (diskPath diskTmp : Option String) : WriteStateOutcome :=
  match st with
  | none => ⟨false, none, false, lastFlush, diskPath, diskTmp⟩
  | some s =>
    let cached := stripAnalysis s
    match lastFlush with
    | some t =>
      if now - t < writeFlushIntervalNanos then
        ⟨true, some cached, false, lastFlush, diskPath, diskTmp⟩
      else ⟨true, some cached, true, some now, some (marshal cached), none⟩
    | none => ⟨true, some cached, true, some now, some (marshal cached), none⟩

/-- Observable effects of one writeAnalysisCache call. -/
structure WriteAnalysisOutcome where
  memoUpdated : Bool
  memoValue : Option AnalysisCache
  removedFile : Bool
  flushed : Bool
  lastFlushAfter : Option Int
  pathContentAfter : Option String
  tmpContentAfter : Option String
deriving DecidableEq, Repr

/-- writeAnalysisCache (state engine): a nil or package-less cache removes
the file and clears the memo and flush entries; otherwise the same
debounced write as writeState. -/
def writeAnalysisCache (marshal : AnalysisCache → String) (cache : Option AnalysisCache)
    (now : Int) (lastFlush : Option Int) (diskPath diskTmp : Option String) :
    WriteAnalysisOutcome :=
  match cache with
  | none => ⟨true, none, true, false, none, none, diskTmp⟩
  | some c =>
    if c.packages = [] then ⟨true, none, true, false, none, none, diskTmp⟩
    else
      match lastFlush with
      | some t =>
        if now - t < writeFlushIntervalNanos then
          ⟨true, some c, false, false, lastFlush, diskPath, diskTmp⟩
        else ⟨true, some c, false, true, some now, some (marshal c), none⟩
      | none => ⟨true, some c, false, true, some now, some (marshal c), none⟩

/- ### Package planner and fingerprints (unnamed part_011 / shell_analyzer.go) -/

/-- packagePlan (part_011). -/
structure packagePlan where
  relativePath : String
  dirAbsPath : String
  fileRelPaths : List String
  fingerprint : String
deriving DecidableEq, Repr

/-- stateEntryByRelPath: the per-path view of the next state's entries
(none when the state is absent or empty). -/
def stateEntryByRelPath (st : Option CodemapState) : Option (List StateEntry) :=
  match st with
  | none => none
  | some s => if s.entries = [] then none else some s.entries

/-- Go map lookup over the entry list built by stateEntryByRelPath: a later
entry with the same path overwrites an earlier one. -/
def stateEntryLookup (entries : List StateEntry) (relPath : String) : Option StateEntry :=
  entries.foldl (fun acc e => if e.relPath = relPath then some e else acc) none

/-- The loop body of packageFingerprint: the written (relPath, contentHash)
pairs, or none as soon as a member has no usable content hash. -/
def fingerprintChunks (entries : List StateEntry) : List String → Option (List (String × String))
  | [] => some []
  | p :: ps =>
    match stateEntryLookup entries p with
    | none => none
    | some e =>
      if e.contentHash = "" then none
      else (fingerprintChunks entries ps).map (fun rest => (p, e.contentHash) :: rest)

/-- packageFingerprint (part_011): sha256 over the member pairs with zero
separators, or "" when there are no members, no entry map, or a member
without a content hash. -/
def packageFingerprint (sha : HashFn) (fileRelPaths : List String)
    (entriesByRel : Option (List StateEntry)) : String :=
  match entriesByRel with
  | none => ""
  | some entries =>
    if fileRelPaths = [] then ""
    else
      match fingerprintChunks entries fileRelPaths with
      | none => ""
      | some pairs => sha (encodePairs pairs)

/-- isShellTestPath (shell_analyzer.go). -/
def isShellTestPath (relPath : String) (fileMatchTest : Bool) : Bool :=
  if fileMatchTest then true
  else
    let lower := toLowerStr relPath
    if strStartsWith lower "tests/" || strContains lower "/tests/" then true
    else if strStartsWith lower "test/" || strContains lower "/test/" then true
    else isShellTestPathLike (goBasename lower)

/-- filepath.Join for the modelled slash paths. -/
def joinPath (a b : String) : String := if a = "" then b else a ++ "/" ++ b

/-- buildShellPackagePlans (shell_analyzer.go): groups the snapshot's shell
files into units keyed by pkgRootRel (shellPackageRootRel in the source,
whose path-segment helper is supplied as a parameter), sorts each unit's
member list, and fingerprints it.  The Go map iteration is modelled by
taking the sorted, deduplicated key set and filtering (which preserves the
source's append order per key). -/
def buildShellPackagePlans (sha : HashFn) (pkgRootRel : String → String) (root : String)
    (files : List FileRecord) (includeTests : Bool) (entriesByRel : Option (List StateEntry)) :
    List packagePlan :=
  let eligible := files.filter (fun rec =>
    rec.language = languageShell && (includeTests || !(isShellTestPath rec.relPath rec.isTest)))
  let keys := sortStrings ((eligible.map (fun rec => pkgRootRel rec.relPath)).eraseDups)
  keys.map (fun rel =>
    let members := sortStrings
      ((eligible.filter (fun rec => pkgRootRel rec.relPath = rel)).map (fun rec => rec.relPath))
    ⟨rel, if rel = "." then root else joinPath root rel, members,
      packageFingerprint sha members entriesByRel⟩)

/-- cachedPackagesByPath (part_011): the persisted per-unit cache view,
valid only when the analysis cache exists and every scoping option matches
exactly. -/
def cachedPackagesByPath (prevState : Option CodemapState) (opts : Options)
    (modulePath : String) : Option (List CachedPackage) :=
  match prevState with
  | none => none
  | some st =>
    match st.analysis with
    | none => none
    | some cache =>
      if cache.version ≠ analysisCacheVersionV2 ∨ cache.includeTests ≠ opts.includeTests ∨
          cache.largePackageFiles ≠ opts.largePackageFiles ∨ cache.modulePath ≠ modulePath then
        none
      else some cache.packages

/-- Go map lookup over the cached package list: a later package with the
same relative path overwrites an earlier one. -/
def lookupCachedByRel (pkgs : List CachedPackage) (rel : String) : Option CachedPackage :=
  pkgs.foldl (fun acc p => if p.relativePath = rel then some p else acc) none

/-- The per-plan cache-reuse decision from analyzeShellWithIndex /
analyzeGoWithIndex: the cached package is reused exactly when a cached
entry exists at the plan's relative path, the fresh fingerprint is
non-empty and the fingerprints agree; otherwise the plan becomes an
analysis job. -/
def planReuse (cached : Option (List CachedPackage)) (plan : packagePlan) : Option Package :=
  match cached with
  | none => none
  | some pkgs =>
    match lookupCachedByRel pkgs plan.relativePath with
    | none => none
    | some c =>
      if plan.fingerprint ≠ "" ∧ c.fingerprint = plan.fingerprint then some c.package else none

/-- The packageResults array right after the reuse loop (none marks a slot
awaiting its analysis job). -/
def planCacheResults (cached : Option (List CachedPackage)) (plans : List packagePlan) :
    List (Option Package) :=
  plans.map (planReuse cached)

/-- The job list built by the reuse loop, indices threaded from k. -/
def planJobsAux (cached : Option (List CachedPackage)) : Nat → List packagePlan → List Nat
  | _, [] => []
  | i, plan :: plans =>
    if planReuse cached plan = none then i :: planJobsAux cached (i + 1) plans
    else planJobsAux cached (i + 1) plans

/-- The job list built by the reuse loop: the indices whose unit is handed
to the per-unit analyzer. -/
def planJobs (cached : Option (List CachedPackage)) (plans : List packagePlan) : List Nat :=
  planJobsAux cached 0 plans

/- ### Analysis-cache update and multi-language sequencing -/

/-- The cached-package list built by updateAnalysisCache: one record per
successfully analysed plan with a non-empty fingerprint. -/
def collectCachedPackages : List packagePlan → List (Option Package) → List CachedPackage
  | plan :: plans, result :: results =>
    match result with
    | none => collectCachedPackages plans results
    | some pkg =>
      if plan.fingerprint = "" then collectCachedPackages plans results
      else ⟨plan.relativePath, plan.fingerprint, plan.fileRelPaths, pkg⟩ ::
        collectCachedPackages plans results
  | _, _ => []

/-- updateAnalysisCache (part_011): wholesale replacement of
NextState.Analysis with a cache scoped to this analyzer's options and
module path. -/
def updateAnalysisCache (nextState : Option CodemapState) (opts : Options) (modulePath : String)
    (plans : List packagePlan) (packageResults : List (Option Package)) : Option CodemapState :=
  match nextState with
  | none => none
  | some st =>
    let cache : AnalysisCache :=
      ⟨analysisCacheVersionV2, opts.includeTests, opts.largePackageFiles, modulePath,
        collectCachedPackages plans packageResults⟩
    some { st with analysis := some cache }

/-- One language analyzer's contribution to the shared next state. -/
structure AnalyzerRun where
  modulePath : String
  plans : List packagePlan
  results : List (Option Package)

/-- AnalyzeWithRegistry (engine.go) runs the selected analyzers in
ascending language order over the shared AnalysisInput; each one ends by
calling updateAnalysisCache on the shared next state. -/
def runAnalyzersSequential (opts : Options) (runs : List AnalyzerRun)
    (st : Option CodemapState) : Option CodemapState :=
  runs.foldl (fun acc run => updateAnalysisCache acc opts run.modulePath run.plans run.results) st

/- ### Snapshot walker (unnamed part_008, BuildFileIndexWithLanguages) -/

/-- A file tree: directory children are listed in the lexical order in
which filepath.WalkDir visits them. -/
inductive FTree where
  | file (name : String) (size modTime : Int)
  | dir (name : String) (modTime : Int) (children : List FTree)

/-- isExcludedDir (part_008). -/
def isExcludedDir (name : String) : Bool :=
  strStartsWith name "." || name = "vendor" || name = "testdata" || name = "workspace"

def treeName : FTree → String
  | .file n _ _ => n
  | .dir n _ _ => n

mutual
def walkEntry (specs : List LanguageSpec) (pfx : String) :
    FTree → List DirRecord × List FileRecord
  | .file name size mt =>
    match matchLanguageForPath name specs with
    | some m =>
      ([], [⟨joinPath pfx name, joinPath pfx name, size, mt, m.id,
        decide (m.id = languageGo), m.isTest⟩])
    | none => ([], [])
  | .dir name mt children =>
    if isExcludedDir name then ([], [])
    else
      let rel := joinPath pfx name
      let sub := walkEntries specs rel children
      (⟨rel, mt⟩ :: sub.1, sub.2)

def walkEntries (specs : List LanguageSpec) (pfx : String) :
    List FTree → List DirRecord × List FileRecord
  | [] => ([], [])
  | t :: ts =>
    let a := walkEntry specs pfx t
    let b := walkEntries specs pfx ts
    (a.1 ++ b.1, a.2 ++ b.2)
end

/-- BuildFileIndexWithLanguages (part_008) over the tree model: the walk
records every top-level entry name (sorted, and before exclusion applies),
every non-excluded directory (the root as "."), and every file matching a
configured language; an excluded directory is skipped together with its
entire subtree. -/
def buildFileIndexModel (specs : List LanguageSpec) (rootModTime : Int)
    (children : List FTree) : FileIndex :=
  let sub := walkEntries specs "" children
  ⟨sortStrings (children.map treeName), ⟨".", rootModTime⟩ :: sub.1, sub.2⟩

/- ### Concrete instances used by witnesses and counterexamples -/

/-- An injective stand-in digest used to instantiate the sha parameter in
witnesses and counterexamples: the raw byte stream itself as a string. -/
def shaMk : HashFn := fun cs => String.mk cs

/-- The digest of a file's on-disk content (the value every successful
hash of an unchanged file produces). -/
def contentHashOf (sha : HashFn) (disk : String → Option (List Char)) (r : FileRecord) :
    String :=
  sha ((disk r.absPath).getD [])

/-- The usable content hash a unit member contributes to its fingerprint:
none when the member is missing from the entry map or its hash is empty. -/
def memberHash (entries : List StateEntry) (relPath : String) : Option String :=
  (stateEntryLookup entries relPath).bind
    (fun e => if e.contentHash = "" then none else some e.contentHash)

/-- C1 example tree: a.go cached, sub/b.go added afterwards without the
sub directory's modtime changing. -/
def c1Tree : List FTree := [.file "a.go" 1 10, .dir "sub" 20 [.file "b.go" 1 11]]

def c1Disk : String → Option (List Char) := fun p =>
  if p = "a.go" then some ['x'] else if p = "sub/b.go" then some ['y'] else none

def c1Stat : String → Option StatInfo := fun p =>
  if p = "a.go" then some ⟨false, 1, 10⟩
  else if p = "sub" then some ⟨true, 0, 20⟩
  else if p = "sub/b.go" then some ⟨false, 1, 11⟩
  else none

/-- C1 example persisted state: consistent with a.go alone. -/
def c1Prev : CodemapState :=
  ⟨4, shaMk (encodePairs [("a.go", "x")]), ["a.go", "sub"], [⟨"sub", 20⟩],
    [⟨"a.go", 1, 10, "x", "go", false⟩], none⟩

/-- C1 amended-claim witness inputs: a single-file tree fully in sync with
its persisted state. -/
def c1wIdx : FileIndex := buildFileIndexModel [goSpec] 5 [.file "a.go" 1 10]

def c1wDisk : String → Option (List Char) := fun p => if p = "a.go" then some ['x'] else none

def c1wStat : String → Option StatInfo := fun p =>
  if p = "a.go" then some ⟨false, 1, 10⟩ else none

def c1wPrev : CodemapState :=
  ⟨4, shaMk (encodePairs [("a.go", "x")]), ["a.go"], [],
    [⟨"a.go", 1, 10, "x", "go", false⟩], none⟩

/-- C2 counterexample: a crafted persisted state whose metadata matches the
snapshot entry-for-entry but whose recorded aggregate is bogus. -/
def c2CexIdx : FileIndex :=
  ⟨["f"], [⟨".", 1⟩], [⟨"f", "f", 1, 10, "go", true, false⟩]⟩

def c2CexPrev : CodemapState :=
  ⟨4, "bogus", ["f"], [⟨"d", 2⟩], [⟨"f", 1, 10, "x", "go", false⟩], none⟩

def c2CexDisk : String → Option (List Char) := fun p => if p = "f" then some ['x'] else none

/-- C2 amended-claim witness inputs: two fresh single-file recomputes whose
only difference is the file's content. -/
def c2wIdxA : FileIndex := ⟨["f"], [⟨".", 1⟩], [⟨"f", "f", 1, 10, "go", true, false⟩]⟩

def c2wIdxB : FileIndex := ⟨["f"], [⟨".", 1⟩], [⟨"g", "f", 1, 10, "go", true, false⟩]⟩

def c2wDisk : String → Option (List Char) := fun p =>
  if p = "f" then some ['x'] else if p = "g" then some ['y'] else none

/-- C9 counterexample: entries carry correct content hashes but the
recorded aggregate is bogus; only the file's modtime differs between the
two indexes. -/
def c9Idx1 : FileIndex := ⟨["f"], [⟨".", 1⟩], [⟨"f", "f", 1, 10, "go", true, false⟩]⟩

def c9Idx2 : FileIndex := ⟨["f"], [⟨".", 1⟩], [⟨"f", "f", 1, 11, "go", true, false⟩]⟩

def c9Prev : CodemapState :=
  ⟨4, "bogus", ["f"], [⟨"d", 2⟩], [⟨"f", 1, 10, "x", "go", false⟩], none⟩

def c9Disk : String → Option (List Char) := fun p => if p = "f" then some ['x'] else none

/-- C9 amended-claim witness inputs: consistent persisted state, modtime
bumped in the second index. -/
def c9wPrev : CodemapState :=
  ⟨4, shaMk (encodePairs [("f", "x")]), ["f"], [⟨"d", 2⟩],
    [⟨"f", 1, 10, "x", "go", false⟩], none⟩

/-- C2 amended-claim witness outputs. -/
def c2wAggA : String := shaMk (encodePairs [("f", "x")])

def c2wAggB : String := shaMk (encodePairs [("f", "y")])

def c2wNextA : CodemapState :=
  ⟨codemapStateVersion, c2wAggA, ["f"], [], [⟨"f", 1, 10, "x", "go", false⟩], none⟩

def c2wNextB : CodemapState :=
  ⟨codemapStateVersion, c2wAggB, ["f"], [], [⟨"f", 1, 10, "y", "go", false⟩], none⟩

def c3Pkg : Package := ⟨"", "p", "", 1, 1, [], [], [], ""⟩

def c3Cached : CachedPackage := ⟨"p", "fp", ["p/a.sh"], c3Pkg⟩

def c3Cache : AnalysisCache := ⟨2, false, 0, "m", [c3Cached]⟩

def c3State : CodemapState := ⟨4, "", [], [], [], some c3Cache⟩

def c3Opts : Options := ⟨false, 0⟩

def c3Plan : packagePlan := ⟨"p", "/r/p", ["p/a.sh"], "fp"⟩

def c3Plans : List packagePlan := [c3Plan]

def c7Content : List Char := ('#' :: '!' :: "/usr/bin/env bash\n".data)

def c7Disk : String → Option (List Char) :=
  fun p => if p = "/s/myscript" then some c7Content else none

def c8State : CodemapState := ⟨4, "agg", ["a.go"], [], [], none⟩

def c8Cache : AnalysisCache := ⟨2, false, 0, "m", [⟨"p", "fp", [], ⟨"", "p", "", 0, 0, [], [], [], ""⟩⟩]⟩

def c5BadState : CodemapState := ⟨3, "", [], [], [], none⟩

def c5BadCache : AnalysisCache := ⟨1, false, 0, "", []⟩

def c4RootRel : String → String := fun _ => "."

def c4Files : List FileRecord :=
  [⟨"/r/b.sh", "b.sh", 1, 1, "shell", false, false⟩,
   ⟨"/r/a.sh", "a.sh", 1, 1, "shell", false, false⟩]

def c4Entries : List StateEntry :=
  [⟨"a.sh", 1, 1, "ha", "shell", false⟩, ⟨"b.sh", 1, 1, "hb", "shell", false⟩]

def c4Plan : packagePlan :=
  ⟨".", "/r", ["a.sh", "b.sh"], shaMk (encodePairs [("a.sh", "ha"), ("b.sh", "hb")])⟩

/- ### Helper lemmas -/

theorem sepSplit (sep : Char) :
    ∀ (a : List Char) (b x y : List Char), sep ∉ a → sep ∉ b →
      a ++ sep :: x = b ++ sep :: y → a = b ∧ x = y := by
  intro a
  induction a with
  | nil =>
    intro b x y _ hb h
    cases b with
    | nil => simpa using h
    | cons c bs =>
      simp only [List.nil_append, List.cons_append, List.cons.injEq] at h
      have : sep ∈ c :: bs := by rw [h.1]; exact List.mem_cons_self c bs
      exact absurd this hb
  | cons c as ih =>
    intro b x y ha hb h
    cases b with
    | nil =>
      simp only [List.cons_append, List.nil_append, List.cons.injEq] at h
      have : sep ∈ c :: as := by rw [← h.1]; exact List.mem_cons_self c as
      exact absurd this ha
    | cons d bs =>
      simp only [List.cons_append, List.cons.injEq] at h
      obtain ⟨rfl, h2⟩ := h
      have ha' : sep ∉ as := fun hm => ha (List.mem_cons_of_mem _ hm)
      have hb' : sep ∉ bs := fun hm => hb (List.mem_cons_of_mem _ hm)
      obtain ⟨rfl, rfl⟩ := ih bs x y ha' hb' h2
      exact ⟨rfl, rfl⟩

theorem encodePairs_ne_nil (p : String × String) (ps : List (String × String)) :
    encodePairs (p :: ps) ≠ [] := by
  simp [encodePairs]

theorem encodePairs_injOn :
    ∀ (l₁ l₂ : List (String × String)), nulFreePairs l₁ → nulFreePairs l₂ →
      encodePairs l₁ = encodePairs l₂ → l₁ = l₂ := by
  intro l₁
  induction l₁ with
  | nil =>
    intro l₂ _ _ h
    cases l₂ with
    | nil => rfl
    | cons q qs => exact absurd h.symm (encodePairs_ne_nil q qs)
  | cons p ps ih =>
    intro l₂ h₁ h₂ h
    cases l₂ with
    | nil => exact absurd h (encodePairs_ne_nil p ps)
    | cons q qs =>
      have hp := h₁ p (List.mem_cons_self p ps)
      have hq := h₂ q (List.mem_cons_self q qs)
      simp only [encodePairs] at h
      obtain ⟨e1, h'⟩ := sepSplit nulChar p.1.data q.1.data _ _ hp.1 hq.1 h
      obtain ⟨e2, h''⟩ := sepSplit nulChar p.2.data q.2.data _ _ hp.2 hq.2 h'
      have hps : nulFreePairs ps := fun r hr => h₁ r (List.mem_cons_of_mem _ hr)
      have hqs : nulFreePairs qs := fun r hr => h₂ r (List.mem_cons_of_mem _ hr)
      have hrest : ps = qs := ih qs hps hqs h''
      subst hrest
      have hp1 : p.1 = q.1 := String.ext e1
      have hp2 : p.2 = q.2 := String.ext e2
      have hpq : p = q := Prod.ext hp1 hp2
      rw [hpq]

theorem shaMk_injective : Function.Injective shaMk := by
  intro a b h
  exact congrArg String.data h

theorem insertOrd_mem {α : Type} (leb : α → α → Bool) (x y : α) :
    ∀ l : List α, y ∈ insertOrd leb x l ↔ y = x ∨ y ∈ l := by
  intro l
  induction l with
  | nil => simp [insertOrd]
  | cons z zs ih =>
    by_cases h : leb x z = true
    · simp [insertOrd, h]
    · simp only [insertOrd, if_neg h, List.mem_cons, ih]
      tauto

theorem insertOrd_pairwise {α : Type} (leb : α → α → Bool)
    (htot : ∀ a b, leb a b = false → leb b a = true)
    (htrans : ∀ a b c, leb a b = true → leb b c = true → leb a c = true)
    (x : α) :
    ∀ l : List α, l.Pairwise (fun a b => leb a b = true) →
      (insertOrd leb x l).Pairwise (fun a b => leb a b = true) := by
  intro l
  induction l with
  | nil => intro _; simp [insertOrd]
  | cons z zs ih =>
    intro hp
    rw [List.pairwise_cons] at hp
    by_cases h : leb x z = true
    · rw [insertOrd, if_pos h]
      refine List.Pairwise.cons ?_ (List.Pairwise.cons hp.1 hp.2)
      intro b hb
      rcases List.mem_cons.mp hb with hb | hb
      · exact hb ▸ h
      · exact htrans x z b h (hp.1 b hb)
    · rw [insertOrd, if_neg h]
      refine List.Pairwise.cons ?_ (ih hp.2)
      intro b hb
      rcases (insertOrd_mem leb x b zs).mp hb with hb | hb
      · exact hb ▸ htot x z (Bool.eq_false_iff.mpr h ▸ rfl)
      · exact hp.1 b hb

theorem sortOrd_pairwise {α : Type} (leb : α → α → Bool)
    (htot : ∀ a b, leb a b = false → leb b a = true)
    (htrans : ∀ a b c, leb a b = true → leb b c = true → leb a c = true) :
    ∀ l : List α, (sortOrd leb l).Pairwise (fun a b => leb a b = true) := by
  intro l
  induction l with
  | nil => simp [sortOrd]
  | cons x xs ih => exact insertOrd_pairwise leb htot htrans x _ ih

theorem charToNat_inj (a b : Char) (h : a.toNat = b.toNat) : a = b :=
  Char.ext (UInt32.ext h)

theorem listCharLtb_irrefl : ∀ as : List Char, listCharLtb as as = false := by
  intro as
  induction as with
  | nil => rfl
  | cons a as ih =>
    rw [listCharLtb, if_neg (lt_irrefl a.toNat), if_neg (lt_irrefl a.toNat)]
    exact ih

theorem listCharLtb_asymm : ∀ as bs : List Char,
    listCharLtb as bs = true → listCharLtb bs as = false := by
  intro as
  induction as with
  | nil =>
    intro bs h
    cases bs with
    | nil => simp [listCharLtb] at h
    | cons b bs => rfl
  | cons a as ih =>
    intro bs h
    cases bs with
    | nil => exact absurd h (by rw [listCharLtb]; simp)
    | cons b bs =>
      rw [listCharLtb] at h
      rw [listCharLtb]
      by_cases hab : a.toNat < b.toNat
      · rw [if_neg (by omega : ¬ b.toNat < a.toNat), if_pos hab]
      · rw [if_neg hab] at h
        by_cases hba : b.toNat < a.toNat
        · rw [if_pos hba] at h; exact absurd h (by simp)
        · rw [if_neg hba] at h
          rw [if_neg hba, if_neg hab]
          exact ih bs h

theorem listCharLtb_trans : ∀ as bs cs : List Char,
    listCharLtb as bs = true → listCharLtb bs cs = true → listCharLtb as cs = true := by
  intro as
  induction as with
  | nil =>
    intro bs cs hab hbc
    cases bs with
    | nil => exact absurd hab (by rw [listCharLtb]; simp)
    | cons b bs =>
      cases cs with
      | nil => exact absurd hbc (by rw [listCharLtb]; simp)
      | cons c cs => rfl
  | cons a as ih =>
    intro bs cs hab hbc
    cases bs with
    | nil => exact absurd hab (by rw [listCharLtb]; simp)
    | cons b bs =>
      cases cs with
      | nil => exact absurd hbc (by rw [listCharLtb]; simp)
      | cons c cs =>
        rw [listCharLtb] at hab hbc ⊢
        by_cases hab1 : a.toNat < b.toNat
        · by_cases hbc1 : b.toNat < c.toNat
          · rw [if_pos (by omega : a.toNat < c.toNat)]
          · rw [if_neg hbc1] at hbc
            by_cases hbc2 : c.toNat < b.toNat
            · rw [if_pos hbc2] at hbc; exact absurd hbc (by simp)
            · rw [if_pos (by omega : a.toNat < c.toNat)]
        · rw [if_neg hab1] at hab
          by_cases hab2 : b.toNat < a.toNat
          · rw [if_pos hab2] at hab; exact absurd hab (by simp)
          · rw [if_neg hab2] at hab
            by_cases hbc1 : b.toNat < c.toNat
            · rw [if_pos (by omega : a.toNat < c.toNat)]
            · rw [if_neg hbc1] at hbc
              by_cases hbc2 : c.toNat < b.toNat
              · rw [if_pos hbc2] at hbc; exact absurd hbc (by simp)
              · rw [if_neg hbc2] at hbc
                rw [if_neg (by omega : ¬ a.toNat < c.toNat),
                  if_neg (by omega : ¬ c.toNat < a.toNat)]
                exact ih bs cs hab hbc

theorem listCharLtb_conn : ∀ as bs : List Char,
    listCharLtb as bs = false → listCharLtb bs as = false → as = bs := by
  intro as
  induction as with
  | nil =>
    intro bs hab _
    cases bs with
    | nil => rfl
    | cons b bs => exact absurd hab (by rw [listCharLtb]; simp)
  | cons a as ih =>
    intro bs hab hba
    cases bs with
    | nil => exact absurd hba (by rw [listCharLtb]; simp)
    | cons b bs =>
      rw [listCharLtb] at hab hba
      by_cases h1 : a.toNat < b.toNat
      · rw [if_pos h1] at hab; exact absurd hab (by simp)
      · by_cases h2 : b.toNat < a.toNat
        · rw [if_pos h2] at hba; exact absurd hba (by simp)
        · rw [if_neg h1, if_neg h2] at hab
          rw [if_neg h2, if_neg h1] at hba
          have hhead : a = b := charToNat_inj a b (by omega)
          rw [hhead, ih bs hab hba]

theorem strLtb_asymm (a b : String) (h : strLtb a b = true) : strLtb b a = false :=
  listCharLtb_asymm a.data b.data h

theorem strLtb_irrefl (a : String) : strLtb a a = false := listCharLtb_irrefl a.data

theorem strLtb_trans (a b c : String) (hab : strLtb a b = true) (hbc : strLtb b c = true) :
    strLtb a c = true :=
  listCharLtb_trans a.data b.data c.data hab hbc

theorem strLtb_conn (a b : String) (hab : strLtb a b = false) (hba : strLtb b a = false) :
    a = b :=
  String.ext (listCharLtb_conn a.data b.data hab hba)

theorem strLeb_total (a b : String) (h : strLeb a b = false) : strLeb b a = true := by
  rw [strLeb, Bool.not_eq_false'] at h
  rw [strLeb, strLtb_asymm b a h]
  rfl

theorem strLeb_trans (a b c : String) (hab : strLeb a b = true) (hbc : strLeb b c = true) :
    strLeb a c = true := by
  rw [strLeb, Bool.not_eq_true'] at hab hbc
  rw [strLeb, Bool.not_eq_true']
  cases hca : strLtb c a with
  | false => rfl
  | true =>
    exfalso
    cases hbc2 : strLtb b c with
    | true =>
      have hba := strLtb_trans b c a hbc2 hca
      rw [hba] at hab
      exact Bool.noConfusion hab
    | false =>
      have hcb : c = b := strLtb_conn c b hbc hbc2
      rw [hcb] at hca
      rw [hca] at hab
      exact Bool.noConfusion hab

theorem sortStrings_pairwise (l : List String) :
    (sortStrings l).Pairwise (fun a b => strLeb a b = true) :=
  sortOrd_pairwise strLeb strLeb_total strLeb_trans l


theorem dropWhile_append_of_all {α : Type} (p : α → Bool) :
    ∀ (l₁ l₂ : List α), (∀ x ∈ l₁, p x = true) →
      (l₁ ++ l₂).dropWhile p = l₂.dropWhile p := by
  intro l₁
  induction l₁ with
  | nil => intro l₂ _; rfl
  | cons a l ih =>
    intro l₂ h
    rw [List.cons_append, List.dropWhile_cons, if_pos (h a (List.mem_cons_self a l))]
    exact ih l₂ (fun x hx => h x (List.mem_cons_of_mem a hx))

theorem findCachedEntry_fst_sub (rem : List StateEntry) (relPath : String) :
    (findCachedEntry rem relPath).1 ⊆ rem := by
  rw [findCachedEntry]
  cases hd : rem.dropWhile (fun e => relLtb e.relPath relPath) with
  | nil => intro x hx; simp at hx
  | cons e rest =>
    intro x hx
    simp only at hx
    have : x ∈ rem.dropWhile (fun e => relLtb e.relPath relPath) := hd ▸ hx
    exact (List.dropWhile_sublist _).subset this

theorem findCachedEntry_snd_some (rem : List StateEntry) (relPath : String) (e : StateEntry)
    (h : (findCachedEntry rem relPath).2 = some e) : e ∈ rem ∧ e.relPath = relPath := by
  rw [findCachedEntry] at h
  cases hd : rem.dropWhile (fun x => relLtb x.relPath relPath) with
  | nil => rw [hd] at h; simp at h
  | cons e' rest =>
    rw [hd] at h
    simp only at h
    by_cases he : e'.relPath = relPath
    · rw [if_pos he] at h
      have hee : e' = e := by injection h
      constructor
      · have hmem : e' ∈ rem.dropWhile (fun x => relLtb x.relPath relPath) := by
          rw [hd]; exact List.mem_cons_self e' rest
        exact hee ▸ (List.dropWhile_sublist _).subset hmem
      · exact hee ▸ he
    · rw [if_neg he] at h; simp at h

theorem option_map_getD {α β : Type} (o : Option α) (f : α → β) (d : α) (h : o.isSome) :
    o.map f = some (f (o.getD d)) := by
  cases o with
  | none => simp at h
  | some a => rfl

/-- Core loop lemma: when every file's content is readable and every cached
entry that metadata-matches a file carries that file's true content digest,
the streaming loop produces exactly the canonical
(relPath, digest-of-content) pairs — independent of all modtimes. -/
theorem hashOnlyLoop_content (sha : HashFn) (disk : String → Option (List Char)) :
    ∀ (files : List FileRecord) (rem : List StateEntry),
      (∀ r ∈ files, (disk r.absPath).isSome) →
      (∀ e ∈ rem, ∀ r ∈ files, e.relPath = r.relPath → e.size = r.size → e.contentHash ≠ "" →
        e.contentHash = contentHashOf sha disk r) →
      hashOnlyLoop sha disk files rem =
        some (files.map (fun r => (r.relPath, contentHashOf sha disk r))) := by
  intro files
  induction files with
  | nil => intro rem _ _; rfl
  | cons rec files ih =>
    intro rem hdisk hcons
    have hdisk' : ∀ r ∈ files, (disk r.absPath).isSome :=
      fun r hr => hdisk r (List.mem_cons_of_mem rec hr)
    have hrec : (disk rec.absPath).isSome := hdisk rec (List.mem_cons_self rec files)
    have hrecHash : hashFileContents sha disk rec.absPath = some (contentHashOf sha disk rec) :=
      option_map_getD _ sha [] hrec
    have hconsRest : ∀ e ∈ (findCachedEntry rem rec.relPath).1, ∀ r ∈ files,
        e.relPath = r.relPath → e.size = r.size → e.contentHash ≠ "" →
        e.contentHash = contentHashOf sha disk r :=
      fun e he r hr =>
        hcons e (findCachedEntry_fst_sub rem rec.relPath he) r (List.mem_cons_of_mem rec hr)
    have hr2 := ih (findCachedEntry rem rec.relPath).1 hdisk' hconsRest
    show (match entryHashFor sha disk rec (findCachedEntry rem rec.relPath).2 with
      | none => none
      | some h => (hashOnlyLoop sha disk files (findCachedEntry rem rec.relPath).1).map
          (fun ps => (rec.relPath, h) :: ps)) = _
    cases hcand : (findCachedEntry rem rec.relPath).2 with
    | none =>
      rw [entryHashFor, hrecHash, hr2]
      rfl
    | some e =>
      obtain ⟨hmem, hrel⟩ := findCachedEntry_snd_some rem rec.relPath e hcand
      rw [entryHashFor]
      by_cases hcond : e.size = rec.size ∧ e.modTimeUnixNano = rec.modTimeUnixNano ∧
          e.contentHash ≠ ""
      · rw [if_pos hcond]
        have heq : e.contentHash = contentHashOf sha disk rec :=
          hcons e hmem rec (List.mem_cons_self rec files) hrel hcond.1 hcond.2.2
        rw [hr2, heq]
        rfl
      · rw [if_neg hcond, hrecHash, hr2]
        rfl

/-- Cursor alignment: when the snapshot's files match the cached entries
pointwise and the cursor list is sorted with the matched entries as a
suffix, the streaming loop reuses every cached hash and reproduces the
cached pairs. -/
theorem hashOnlyLoop_aligned (sha : HashFn) (disk : String → Option (List Char))
    (files : List FileRecord) (entries : List StateEntry)
    (hf : List.Forall₂ (fun r e => r.relPath = e.relPath ∧ r.size = e.size ∧
      r.modTimeUnixNano = e.modTimeUnixNano ∧ e.contentHash ≠ "") files entries) :
    ∀ rem : List StateEntry, rem.Pairwise (fun a b => strLtb a.relPath b.relPath = true) →
      List.IsSuffix entries rem →
      hashOnlyLoop sha disk files rem = some (pairsOf entries) := by
  induction hf with
  | nil => intro rem _ _; rfl
  | @cons r e files entries hre _ ih =>
    intro rem hp hsuf
    obtain ⟨junk, hjunk⟩ := hsuf
    have hjunkLt : ∀ x ∈ junk, strLtb x.relPath e.relPath = true := by
      intro x hx
      rw [← hjunk] at hp
      exact (List.pairwise_append.mp hp).2.2 x hx e (List.mem_cons_self e entries)
    have hdrop : rem.dropWhile (fun x => relLtb x.relPath r.relPath) = e :: entries := by
      rw [← hjunk, dropWhile_append_of_all]
      · rw [List.dropWhile_cons, if_neg ?hne]
        case hne =>
          rw [relLtb, hre.1, strLtb_irrefl]
          simp
      · intro x hx
        rw [relLtb, hre.1]
        exact hjunkLt x hx
    have hfce : findCachedEntry rem r.relPath = (e :: entries, some e) := by
      rw [findCachedEntry, hdrop]
      show (e :: entries, if e.relPath = r.relPath then some e else none) = (e :: entries, some e)
      rw [if_pos hre.1.symm]
    have hp' : (e :: entries).Pairwise (fun a b => strLtb a.relPath b.relPath = true) := by
      refine hp.sublist ?_
      rw [← hjunk]
      exact List.sublist_append_right junk (e :: entries)
    have hrec := ih (e :: entries) hp' ⟨[e], rfl⟩
    show (match entryHashFor sha disk r (findCachedEntry rem r.relPath).2 with
      | none => none
      | some h => (hashOnlyLoop sha disk files (findCachedEntry rem r.relPath).1).map
          (fun ps => (r.relPath, h) :: ps)) = _
    rw [hfce]
    show (match entryHashFor sha disk r (some e) with
      | none => none
      | some h => (hashOnlyLoop sha disk files (e :: entries)).map
          (fun ps => (r.relPath, h) :: ps)) = _
    rw [entryHashFor, if_pos ⟨hre.2.1.symm, hre.2.2.1.symm, hre.2.2.2⟩, hrec]
    show some ((r.relPath, e.contentHash) :: pairsOf entries) = some (pairsOf (e :: entries))
    simp only [pairsOf, List.map_cons, hre.1]

theorem filesMatchState_all (stat : String → Option StatInfo)
    (disk : String → Option (List Char)) :
    ∀ es : List StateEntry, filesMatchState stat disk es = some true →
      ∀ e ∈ es, fileEntryMatches stat disk e = some true := by
  intro es
  induction es with
  | nil => intro _ e he; simp at he
  | cons a as ih =>
    intro h e he
    rw [filesMatchState] at h
    cases hm : fileEntryMatches stat disk a with
    | none => rw [hm] at h; simp at h
    | some b =>
      rw [hm] at h
      cases b with
      | false => simp at h
      | true =>
        simp only at h
        rcases List.mem_cons.mp he with rfl | he'
        · exact hm
        · exact ih h e he'

theorem fileEntryMatches_spec (stat : String → Option StatInfo)
    (disk : String → Option (List Char)) (e : StateEntry)
    (h : fileEntryMatches stat disk e = some true) :
    e.contentHash ≠ "" ∧ ∃ info, stat e.relPath = some info ∧ info.isDir = false ∧
      info.size = e.size ∧ info.modTimeUnixNano = e.modTimeUnixNano := by
  rw [fileEntryMatches] at h
  split_ifs at h with hch
  · simp at h
  · cases hs : stat e.relPath with
    | none => rw [hs] at h; simp at h
    | some info =>
      rw [hs] at h
      simp only at h
      split_ifs at h with hdir
      · simp at h
      · cases hr : resolveStateEntryLanguage disk e e.relPath with
        | none => rw [hr] at h; simp at h
        | some mo =>
          rw [hr] at h
          cases mo with
          | none => simp at h
          | some m =>
            simp only at h
            split_ifs at h with hm
            · simp at h
            · rw [Option.some.injEq] at h
              have hprops := of_decide_eq_true h
              exact ⟨hch, info, rfl, Bool.not_eq_true info.isDir ▸ hdir, hprops.1, hprops.2⟩

theorem map_eq_forall₂ {α β γ : Type} (f : α → γ) (g : β → γ) :
    ∀ (l₁ : List α) (l₂ : List β), l₁.map f = l₂.map g →
      List.Forall₂ (fun a b => f a = g b) l₁ l₂ := by
  intro l₁
  induction l₁ with
  | nil =>
    intro l₂ h
    cases l₂ with
    | nil => exact .nil
    | cons b l₂ => simp at h
  | cons a l ih =>
    intro l₂ h
    cases l₂ with
    | nil => simp at h
    | cons b l₂ =>
      simp only [List.map_cons, List.cons.injEq] at h
      exact .cons h.1 (ih l₂ h.2)

theorem aggregateHashFromState_some (idx : FileIndex) (p : CodemapState)
    (r : String × CodemapState) (h : aggregateHashFromState idx (some p) = some r) :
    r.1 = p.aggregateHash ∧ r.2 = p ∧ p.version = codemapStateVersion ∧
      p.aggregateHash ≠ "" ∧
      List.Forall₂ (fun (rc : FileRecord) (e : StateEntry) => rc.relPath = e.relPath ∧
        rc.size = e.size ∧ rc.modTimeUnixNano = e.modTimeUnixNano ∧ e.contentHash ≠ "")
        idx.files p.entries := by
  rw [aggregateHashFromState] at h
  split_ifs at h with h1 h2 h3 h4
  have hr : (p.aggregateHash, p) = r := Option.some.inj h
  push_neg at h1
  have hlen : idx.files.length = p.entries.length := not_ne_iff.mp h3
  refine ⟨hr ▸ rfl, hr ▸ rfl, h1.1, h1.2, ?_⟩
  rw [List.forall₂_iff_zip]
  refine ⟨hlen, ?_⟩
  intro a b hab
  rw [List.all_eq_true] at h4
  exact of_decide_eq_true (h4 (a, b) hab)

theorem tier1_valid_spec (stat : String → Option StatInfo) (rootNames : List String)
    (disk : String → Option (List Char)) (p : CodemapState) (ignored : List String)
    (h : String)
    (h1 : aggregateHashFromFilesystemState stat rootNames disk (some p) ignored =
      some (h, true)) :
    h = p.aggregateHash ∧ p.version = codemapStateVersion ∧ p.aggregateHash ≠ "" ∧
      filesMatchState stat disk p.entries = some true := by
  rw [aggregateHashFromFilesystemState] at h1
  split_ifs at h1 with hv hroot hmatch hdirs
  all_goals try exact absurd (congrArg Prod.snd (Option.some.inj h1)) (by simp)
  cases hm : filesMatchState stat disk p.entries with
  | none => rw [hm] at h1; simp at h1
  | some b =>
    rw [hm] at h1
    cases b with
    | false => simp at h1
    | true =>
      push_neg at hv
      have hpair := Option.some.inj h1
      exact ⟨(congrArg Prod.fst hpair).symm, hv.1, hv.2, rfl⟩

theorem perm_sorted_files_eq (l₁ l₂ : List FileRecord) (hp : l₁.Perm l₂)
    (h₁ : l₁.Pairwise (fun a b => strLtb a.relPath b.relPath = true))
    (h₂ : l₂.Pairwise (fun a b => strLtb a.relPath b.relPath = true)) : l₁ = l₂ := by
  haveI : IsAntisymm FileRecord (fun a b => strLtb a.relPath b.relPath = true) :=
    ⟨fun a b hab hba => absurd hba (by rw [strLtb_asymm _ _ hab]; simp)⟩
  exact List.eq_of_perm_of_sorted hp h₁ h₂

theorem matchPairs_canonical (sha : HashFn) (disk : String → Option (List Char))
    (files : List FileRecord) (entries : List StateEntry)
    (hf : List.Forall₂ (fun r e => r.relPath = e.relPath ∧ r.size = e.size ∧
      r.modTimeUnixNano = e.modTimeUnixNano ∧ e.contentHash ≠ "") files entries)
    (hcons : ∀ e ∈ entries, ∀ r ∈ files, e.relPath = r.relPath → e.size = r.size →
      e.contentHash ≠ "" → e.contentHash = contentHashOf sha disk r) :
    pairsOf entries = files.map (fun r => (r.relPath, contentHashOf sha disk r)) := by
  induction hf with
  | nil => rfl
  | @cons r e files entries hre htl ih =>
    have hhead : (e.relPath, e.contentHash) = (r.relPath, contentHashOf sha disk r) := by
      have hhash : e.contentHash = contentHashOf sha disk r :=
        hcons e (List.mem_cons_self e entries) r (List.mem_cons_self r files)
          hre.1.symm hre.2.1.symm hre.2.2.2
      rw [hre.1, hhash]
    have htail := ih (fun e' he' r' hr' => hcons e' (List.mem_cons_of_mem e he')
      r' (List.mem_cons_of_mem r hr'))
    simp only [pairsOf, List.map_cons] at htail ⊢
    rw [hhead, htail]

theorem recomputeEntries_relPaths (sha : HashFn) (disk : String → Option (List Char)) :
    ∀ (files : List FileRecord) (rem : List StateEntry) (es : List StateEntry),
      recomputeEntries sha disk files rem = some es →
      es.map (fun e => e.relPath) = files.map (fun r => r.relPath) := by
  intro files
  induction files with
  | nil =>
    intro rem es h
    simp only [recomputeEntries, Option.some.injEq] at h
    rw [← h]
    rfl
  | cons rec files ih =>
    intro rem es h
    simp only [recomputeEntries] at h
    cases hh : entryHashFor sha disk rec (findCachedEntry rem rec.relPath).2 with
    | none => rw [hh] at h; simp at h
    | some hsh =>
      rw [hh] at h
      simp only [Option.map_eq_some'] at h
      obtain ⟨es', hes', rfl⟩ := h
      simp only [List.map_cons]
      rw [ih _ _ hes']

theorem computeAggregateHash_recompute (sha : HashFn) (disk : String → Option (List Char))
    (idx : FileIndex) (prev : Option CodemapState) (agg : String) (next : CodemapState)
    (hfast : aggregateHashFromState idx prev = none)
    (h : computeAggregateHash sha disk idx prev = some (agg, next)) :
    recomputeEntries sha disk idx.files (sortedStateEntries prev) = some next.entries ∧
      agg = sha (encodePairs (pairsOf next.entries)) := by
  rw [computeAggregateHash, hfast] at h
  cases hre : recomputeEntries sha disk idx.files (sortedStateEntries prev) with
  | none => rw [hre] at h; simp at h
  | some es =>
    rw [hre] at h
    simp only [Option.map_some', Option.some.injEq, Prod.mk.injEq] at h
    obtain ⟨hagg, hnext⟩ := h
    have hents : next.entries = es := by rw [← hnext]
    rw [hents]
    exact ⟨rfl, hagg.symm⟩

theorem computeAggregateHash_fst_files (sha : HashFn) (disk : String → Option (List Char))
    (prev : Option CodemapState) (idx idx₂ : FileIndex) (hf : idx₂.files = idx.files) :
    (computeAggregateHash sha disk idx₂ prev).map Prod.fst =
      (computeAggregateHash sha disk idx prev).map Prod.fst := by
  have hfa : aggregateHashFromState idx₂ prev = aggregateHashFromState idx prev := by
    cases prev with
    | none => rfl
    | some p => simp only [aggregateHashFromState, hf]
  cases hcase : aggregateHashFromState idx prev with
  | some r => rw [computeAggregateHash, computeAggregateHash, hfa, hcase]
  | none =>
    rw [computeAggregateHash, computeAggregateHash, hfa, hcase, hf]
    cases recomputeEntries sha disk idx.files (sortedStateEntries prev) with
    | none => rfl
    | some es => rfl

theorem runAnalyzersSequential_some (opts : Options) :
    ∀ (runs : List AnalyzerRun) (s : CodemapState),
      ∃ s', runAnalyzersSequential opts runs (some s) = some s' := by
  intro runs
  induction runs with
  | nil => intro s; exact ⟨s, rfl⟩
  | cons run runs ih =>
    intro s
    simp only [runAnalyzersSequential, List.foldl_cons] at *
    rw [updateAnalysisCache]
    exact ih _

theorem planReuse_iff (prevState : Option CodemapState) (opts : Options) (modulePath : String)
    (plan : packagePlan) :
    (∃ pkg, planReuse (cachedPackagesByPath prevState opts modulePath) plan = some pkg) ↔
      (∃ st cache c, prevState = some st ∧ st.analysis = some cache ∧
        cache.version = analysisCacheVersionV2 ∧ cache.includeTests = opts.includeTests ∧
        cache.largePackageFiles = opts.largePackageFiles ∧ cache.modulePath = modulePath ∧
        lookupCachedByRel cache.packages plan.relativePath = some c ∧
        plan.fingerprint ≠ "" ∧ c.fingerprint = plan.fingerprint) := by
  constructor
  · rintro ⟨pkg, hpkg⟩
    cases hps : prevState with
    | none => rw [hps] at hpkg; simp [cachedPackagesByPath, planReuse] at hpkg
    | some st =>
      rw [hps] at hpkg
      cases han : st.analysis with
      | none =>
        simp only [cachedPackagesByPath, han] at hpkg
        simp [planReuse] at hpkg
      | some cache =>
        simp only [cachedPackagesByPath, han] at hpkg
        by_cases hscope : cache.version ≠ analysisCacheVersionV2 ∨
            cache.includeTests ≠ opts.includeTests ∨
            cache.largePackageFiles ≠ opts.largePackageFiles ∨
            cache.modulePath ≠ modulePath
        · rw [if_pos hscope] at hpkg; simp [planReuse] at hpkg
        · rw [if_neg hscope] at hpkg
          push_neg at hscope
          rw [planReuse] at hpkg
          cases hlook : lookupCachedByRel cache.packages plan.relativePath with
          | none => rw [hlook] at hpkg; simp at hpkg
          | some c =>
            rw [hlook] at hpkg
            simp only at hpkg
            by_cases hcond : plan.fingerprint ≠ "" ∧ c.fingerprint = plan.fingerprint
            · exact ⟨st, cache, c, rfl, han, hscope.1, hscope.2.1, hscope.2.2.1,
                hscope.2.2.2, hlook, hcond.1, hcond.2⟩
            · rw [if_neg hcond] at hpkg; simp at hpkg
  · rintro ⟨st, cache, c, rfl, han, hv, hit, hlpf, hmp, hlook, hfp, hcfp⟩
    refine ⟨c.package, ?_⟩
    simp only [cachedPackagesByPath, han]
    rw [if_neg (by push_neg; exact ⟨hv, hit, hlpf, hmp⟩)]
    rw [planReuse, hlook]
    simp only
    rw [if_pos ⟨hfp, hcfp⟩]

theorem planReuse_value (prevState : Option CodemapState) (opts : Options)
    (modulePath : String) (plan : packagePlan) (st : CodemapState) (cache : AnalysisCache)
    (c : CachedPackage) (hps : prevState = some st) (han : st.analysis = some cache)
    (hv : cache.version = analysisCacheVersionV2) (hit : cache.includeTests = opts.includeTests)
    (hlpf : cache.largePackageFiles = opts.largePackageFiles)
    (hmp : cache.modulePath = modulePath)
    (hlook : lookupCachedByRel cache.packages plan.relativePath = some c)
    (hfp : plan.fingerprint ≠ "") (hcfp : c.fingerprint = plan.fingerprint) :
    planReuse (cachedPackagesByPath prevState opts modulePath) plan = some c.package := by
  rw [hps]
  simp only [cachedPackagesByPath, han]
  rw [if_neg (by push_neg; exact ⟨hv, hit, hlpf, hmp⟩)]
  rw [planReuse, hlook]
  simp only
  rw [if_pos ⟨hfp, hcfp⟩]

theorem planJobsAux_ge (cached : Option (List CachedPackage)) :
    ∀ (plans : List packagePlan) (k j : Nat), j ∈ planJobsAux cached k plans → k ≤ j := by
  intro plans
  induction plans with
  | nil => intro k j h; simp [planJobsAux] at h
  | cons plan plans ih =>
    intro k j h
    rw [planJobsAux] at h
    by_cases hr : planReuse cached plan = none
    · rw [if_pos hr] at h
      rcases List.mem_cons.mp h with rfl | h'
      · exact le_refl j
      · exact le_of_lt (lt_of_lt_of_le (Nat.lt_succ_self k) (ih (k + 1) j h'))
    · rw [if_neg hr] at h
      exact le_of_lt (lt_of_lt_of_le (Nat.lt_succ_self k) (ih (k + 1) j h))

theorem planJobsAux_mem (cached : Option (List CachedPackage)) :
    ∀ (plans : List packagePlan) (k i : Nat) (plan : packagePlan),
      plans.get? i = some plan →
      ((k + i) ∈ planJobsAux cached k plans ↔ planReuse cached plan = none) := by
  intro plans
  induction plans with
  | nil => intro k i plan h; simp at h
  | cons a plans ih =>
    intro k i plan h
    cases i with
    | zero =>
      have ha : a = plan := by simpa using h
      subst ha
      rw [planJobsAux]
      by_cases hr : planReuse cached a = none
      · simp [hr]
      · rw [if_neg hr]
        constructor
        · intro hmem
          have := planJobsAux_ge cached plans (k + 1) (k + 0) hmem
          omega
        · intro hc; exact absurd hc hr
    | succ i =>
      have h' : plans.get? i = some plan := by simpa using h
      have harith : k + (i + 1) = (k + 1) + i := by omega
      rw [planJobsAux]
      by_cases hr : planReuse cached a = none
      · rw [if_pos hr]
        rw [harith]
        constructor
        · intro hmem
          rcases List.mem_cons.mp hmem with heq | hmem'
          · omega
          · exact (ih (k + 1) i plan h').mp hmem'
        · intro hc
          exact List.mem_cons_of_mem _ ((ih (k + 1) i plan h').mpr hc)
      · rw [if_neg hr, harith]
        exact ih (k + 1) i plan h'

theorem planJobs_mem (cached : Option (List CachedPackage)) (plans : List packagePlan)
    (i : Nat) (plan : packagePlan) (h : plans.get? i = some plan) :
    i ∈ planJobs cached plans ↔ planReuse cached plan = none := by
  have := planJobsAux_mem cached plans 0 i plan h
  simpa using this

theorem fingerprintChunks_all (entries : List StateEntry) :
    ∀ paths : List String, (∀ p ∈ paths, (memberHash entries p).isSome) →
      fingerprintChunks entries paths =
        some (paths.map (fun p => (p, (memberHash entries p).getD ""))) := by
  intro paths
  induction paths with
  | nil => intro _; rfl
  | cons p ps ih =>
    intro hall
    have hp := hall p (List.mem_cons_self p ps)
    cases hl : stateEntryLookup entries p with
    | none =>
      rw [memberHash, hl] at hp
      simp at hp
    | some e =>
      by_cases hch : e.contentHash = ""
      · rw [memberHash, hl] at hp
        simp only [Option.some_bind] at hp
        rw [if_pos hch] at hp
        simp at hp
      · have hmh : memberHash entries p = some e.contentHash := by
          rw [memberHash, hl]
          simp only [Option.some_bind]
          rw [if_neg hch]
        simp only [fingerprintChunks, hl]
        rw [if_neg hch, ih (fun q hq => hall q (List.mem_cons_of_mem p hq))]
        rw [List.map_cons, hmh]
        rfl

theorem fingerprintChunks_missing (entries : List StateEntry) :
    ∀ (paths : List String) (p : String), p ∈ paths → memberHash entries p = none →
      fingerprintChunks entries paths = none := by
  intro paths
  induction paths with
  | nil => intro p hp _; simp at hp
  | cons q ps ih =>
    intro p hp hnone
    rcases List.mem_cons.mp hp with rfl | hp'
    · cases hl : stateEntryLookup entries p with
      | none => simp only [fingerprintChunks, hl]
      | some e =>
        rw [memberHash, hl] at hnone
        simp only [Option.some_bind] at hnone
        by_cases hch : e.contentHash = ""
        · simp only [fingerprintChunks, hl]
          rw [if_pos hch]
        · rw [if_neg hch] at hnone; simp at hnone
    · cases hl : stateEntryLookup entries q with
      | none => simp only [fingerprintChunks, hl]
      | some e =>
        by_cases hch : e.contentHash = ""
        · simp only [fingerprintChunks, hl]
          rw [if_pos hch]
        · simp only [fingerprintChunks, hl]
          rw [if_neg hch, ih p hp' hnone]
          rfl

theorem forall₂_mem_right {α β : Type} {R : α → β → Prop} :
    ∀ {l₁ : List α} {l₂ : List β}, List.Forall₂ R l₁ l₂ → ∀ b ∈ l₂, ∃ a ∈ l₁, R a b := by
  intro l₁ l₂ hf
  induction hf with
  | nil => intro b hb; simp at hb
  | @cons a b l₁ l₂ hab _ ih =>
    intro b' hb'
    rcases List.mem_cons.mp hb' with rfl | hb'
    · exact ⟨a, List.mem_cons_self a l₁, hab⟩
    · obtain ⟨a', ha', hr⟩ := ih b' hb'
      exact ⟨a', List.mem_cons_of_mem a ha', hr⟩

theorem sortedStateEntries_sub (p : CodemapState) :
    ∀ e ∈ sortedStateEntries (some p), e ∈ p.entries := by
  rw [sortedStateEntries]
  split
  · intro e he; simp at he
  · intro e he; exact he

/-- Both recompute paths collapse to the canonical content digest when the
cached hashes are consistent with the disk contents and the recorded
aggregate is consistent with the cached entries. -/
theorem computeAggregateHashOnly_canonical (sha : HashFn) (disk : String → Option (List Char))
    (idx : FileIndex) (p : CodemapState)
    (hdisk : ∀ r ∈ idx.files, (disk r.absPath).isSome)
    (hcons : ∀ e ∈ p.entries, ∀ r ∈ idx.files, e.relPath = r.relPath → e.size = r.size →
      e.contentHash ≠ "" → e.contentHash = contentHashOf sha disk r)
    (hagg : p.aggregateHash = sha (encodePairs (pairsOf p.entries))) :
    computeAggregateHashOnly sha disk idx (some p) =
      some (sha (encodePairs (idx.files.map (fun r => (r.relPath, contentHashOf sha disk r))))) := by
  rw [computeAggregateHashOnly]
  cases hfast : aggregateHashFromState idx (some p) with
  | some r =>
    obtain ⟨hr1, _, _, _, hmatch⟩ := aggregateHashFromState_some idx p r hfast
    have hpairs := matchPairs_canonical sha disk idx.files p.entries hmatch hcons
    show some r.1 = _
    rw [hr1, hagg, hpairs]
  | none =>
    have hloop := hashOnlyLoop_content sha disk idx.files (sortedStateEntries (some p)) hdisk
      (fun e he => hcons e (sortedStateEntries_sub p e he))
    show (hashOnlyLoop sha disk idx.files (sortedStateEntries (some p))).map
      (fun ps => sha (encodePairs ps)) = _
    rw [hloop]
    rfl

/- ### Claims -/

/-- C1 (counterexample): the claim "for every file tree and persisted cache
state, the tier-1 metadata-only check and the tier-3 full recompute agree"
is false as stated.  On a tree where sub/b.go was added without the sub
directory's recorded modtime changing, and a persisted state that matches
every root entry, directory modtime and file size+modtime+language check,
the tier-1 check declares the persisted hash valid while the tier-3 full
walk over the same tree (its stat oracle shown consistent in the last two
conjuncts) computes a different aggregate hash. -/
theorem claim_C1_counterexample :
    aggregateHashFromFilesystemState c1Stat (sortStrings (c1Tree.map treeName)) c1Disk
        (some c1Prev) [] = some (c1Prev.aggregateHash, true)
    ∧ computeAggregateHashOnly shaMk c1Disk (buildFileIndexModel [goSpec] 5 c1Tree)
        (some c1Prev) = some (shaMk (encodePairs [("a.go", "x"), ("sub/b.go", "y")]))
    ∧ c1Prev.aggregateHash ≠ shaMk (encodePairs [("a.go", "x"), ("sub/b.go", "y")])
    ∧ ((buildFileIndexModel [goSpec] 5 c1Tree).files.all (fun r =>
        decide (c1Stat r.relPath = some ⟨false, r.size, r.modTimeUnixNano⟩))) = true
    ∧ (c1Prev.entries.all (fun e =>
        decide (some e.contentHash = (c1Disk e.relPath).map shaMk))) = true := by
  decide

/-- C1 (amended): when the tier-1 metadata-only check declares the persisted
aggregate valid AND additionally (i) the full walk's file list has exactly
the persisted entries' relative paths, (ii) the walk's records agree with
the stat oracle the tier-1 check consulted, (iii) the persisted aggregate
hash is itself the digest of the persisted entry pairs, and (iv) the
persisted entries are strictly sorted by path, then the tier-3 full
recompute returns exactly the hash tier-1 returned (so the two tiers agree
on staleness and on the hash). -/
theorem claim_C1_amended (sha : HashFn) (stat : String → Option StatInfo)
    (rootNames : List String) (disk : String → Option (List Char)) (idx : FileIndex)
    (p : CodemapState) (ignored : List String) (h : String)
    (h1 : aggregateHashFromFilesystemState stat rootNames disk (some p) ignored =
      some (h, true))
    (h2 : idx.files.map (fun r => r.relPath) = p.entries.map (fun e => e.relPath))
    (h3 : ∀ r ∈ idx.files, stat r.relPath = some ⟨false, r.size, r.modTimeUnixNano⟩)
    (h4 : p.aggregateHash = sha (encodePairs (pairsOf p.entries)))
    (h5 : p.entries.Pairwise (fun a b => strLtb a.relPath b.relPath = true)) :
    computeAggregateHashOnly sha disk idx (some p) = some h := by
  obtain ⟨hhash, hver, haggne, hfiles⟩ := tier1_valid_spec stat rootNames disk p ignored h h1
  have hall := filesMatchState_all stat disk p.entries hfiles
  have hrel : List.Forall₂ (fun (r : FileRecord) (e : StateEntry) => r.relPath = e.relPath)
      idx.files p.entries := map_eq_forall₂ _ _ idx.files p.entries h2
  have hmatch : List.Forall₂ (fun (r : FileRecord) (e : StateEntry) => r.relPath = e.relPath ∧
      r.size = e.size ∧ r.modTimeUnixNano = e.modTimeUnixNano ∧ e.contentHash ≠ "")
      idx.files p.entries := by
    rw [List.forall₂_iff_zip] at hrel ⊢
    refine ⟨hrel.1, ?_⟩
    intro r e hmem
    have hre := hrel.2 hmem
    have hrmem : r ∈ idx.files := (List.mem_zip hmem).1
    have hemem : e ∈ p.entries := (List.mem_zip hmem).2
    have hstat := h3 r hrmem
    obtain ⟨hch, info, hsinfo, hdir, hsize, hmt⟩ := fileEntryMatches_spec stat disk e
      (hall e hemem)
    rw [hre] at hstat
    rw [hstat] at hsinfo
    have hinfo : info = (⟨false, r.size, r.modTimeUnixNano⟩ : StatInfo) :=
      (Option.some.inj hsinfo).symm
    subst hinfo
    exact ⟨hre, hsize, hmt, hch⟩
  rw [computeAggregateHashOnly]
  cases hfast : aggregateHashFromState idx (some p) with
  | some r =>
    obtain ⟨hr1, _, _, _, _⟩ := aggregateHashFromState_some idx p r hfast
    show some r.1 = some h
    rw [hr1, hhash]
  | none =>
    have hsse : sortedStateEntries (some p) = p.entries := by
      rw [sortedStateEntries]
      by_cases he : p.entries = []
      · rw [if_pos (Or.inr he), he]
      · rw [if_neg (by push_neg; exact ⟨hver, he⟩)]
    show (hashOnlyLoop sha disk idx.files (sortedStateEntries (some p))).map
      (fun ps => sha (encodePairs ps)) = some h
    rw [hsse, hashOnlyLoop_aligned sha disk idx.files p.entries hmatch p.entries h5
      (List.suffix_refl _)]
    simp only [Option.map_some']
    rw [← h4, hhash]

/-- C1 (amended, witness): a one-file tree fully in sync with a consistent
persisted state exercises the amended equivalence. -/
theorem claim_C1_amended_witness :
    computeAggregateHashOnly shaMk c1wDisk c1wIdx (some c1wPrev) =
      some c1wPrev.aggregateHash :=
  claim_C1_amended shaMk c1wStat ["a.go"] c1wDisk c1wIdx c1wPrev [] c1wPrev.aggregateHash
    (by decide) (by decide) (by decide) (by decide) (by decide)

/-- C2 (counterexample): the claim "for every snapshot, the recompute
operation returns the aggregate hash equal to the SHA-256 digest of the
sorted (relPath, contentHash) pairs" is false as stated: against a crafted
persisted state whose metadata matches the snapshot entry-for-entry but
whose recorded aggregate is bogus, computeAggregateHash returns the bogus
recorded value, not the digest of the pairs (the last conjunct shows the
cached per-file hash does match the file's true content digest). -/
theorem claim_C2_counterexample :
    computeAggregateHash shaMk c2CexDisk c2CexIdx (some c2CexPrev) = some ("bogus", c2CexPrev)
    ∧ "bogus" ≠ shaMk (encodePairs (pairsOf c2CexPrev.entries))
    ∧ (c2CexPrev.entries.all (fun e =>
        decide (some e.contentHash = (c2CexDisk e.relPath).map shaMk))) = true := by
  decide

/-- C2 (amended): whenever the in-memory metadata fast path does not
short-circuit, the recompute operation returns the digest (under the
abstract sha256) of the null-separated (relativePath, contentHash) pair
stream of its computed entries, whose paths are exactly the snapshot's
paths in snapshot order (so sorted when the snapshot is sorted); the
aggregate is invariant under any reordering of the snapshot's files that is
re-sorted (traversal-order independence); and two recomputes whose pair
sequences differ in a single position yield different digests provided the
digest function is collision-free and paths and hashes contain no zero
byte. -/
theorem claim_C2_amended (sha : HashFn) (disk diskB : String → Option (List Char))
    (idx idx₂ idxB : FileIndex) (prev prevB : Option CodemapState)
    (aggA aggB : String) (nextA nextB : CodemapState) (i : Nat)
    (hinj : Function.Injective sha)
    (hfastA : aggregateHashFromState idx prev = none)
    (hA : computeAggregateHash sha disk idx prev = some (aggA, nextA))
    (hsorted : idx.files.Pairwise (fun a b => strLtb a.relPath b.relPath = true))
    (hperm : idx₂.files.Perm idx.files)
    (hsorted₂ : idx₂.files.Pairwise (fun a b => strLtb a.relPath b.relPath = true))
    (hfastB : aggregateHashFromState idxB prevB = none)
    (hB : computeAggregateHash sha diskB idxB prevB = some (aggB, nextB))
    (hi : i < (pairsOf nextA.entries).length)
    (hlen : (pairsOf nextA.entries).length = (pairsOf nextB.entries).length)
    (hagree : ∀ j < (pairsOf nextA.entries).length, j ≠ i →
      (pairsOf nextA.entries).get? j = (pairsOf nextB.entries).get? j)
    (hdiffi : (pairsOf nextA.entries).get? i ≠ (pairsOf nextB.entries).get? i)
    (hnulA : nulFreePairs (pairsOf nextA.entries))
    (hnulB : nulFreePairs (pairsOf nextB.entries)) :
    aggA = sha (encodePairs (pairsOf nextA.entries))
    ∧ nextA.entries.map (fun e => e.relPath) = idx.files.map (fun r => r.relPath)
    ∧ nextA.entries.Pairwise (fun a b => strLtb a.relPath b.relPath = true)
    ∧ (computeAggregateHash sha disk idx₂ prev).map Prod.fst = some aggA
    ∧ aggA ≠ aggB := by
  obtain ⟨hreA, haggA⟩ := computeAggregateHash_recompute sha disk idx prev aggA nextA hfastA hA
  obtain ⟨hreB, haggB⟩ :=
    computeAggregateHash_recompute sha diskB idxB prevB aggB nextB hfastB hB
  have hpaths := recomputeEntries_relPaths sha disk idx.files _ nextA.entries hreA
  refine ⟨haggA, hpaths, ?_, ?_, ?_⟩
  · have h1 : (idx.files.map (fun r => r.relPath)).Pairwise (fun a b => strLtb a b = true) :=
      List.pairwise_map.mpr hsorted
    rw [← hpaths] at h1
    exact List.pairwise_map.mp h1
  · have hfe : idx₂.files = idx.files := perm_sorted_files_eq _ _ hperm hsorted₂ hsorted
    rw [computeAggregateHash_fst_files sha disk prev idx idx₂ hfe, hA]
    rfl
  · intro heq
    have hpairsne : pairsOf nextA.entries ≠ pairsOf nextB.entries :=
      fun hpe => hdiffi (by rw [hpe])
    have henc : encodePairs (pairsOf nextA.entries) ≠ encodePairs (pairsOf nextB.entries) :=
      fun he => hpairsne (encodePairs_injOn _ _ hnulA hnulB he)
    rw [haggA, haggB] at heq
    exact henc (hinj heq)

/-- C2 (amended, witness): two fresh single-file recomputes differing only
in the file's content byte exercise every conjunct of the amended claim. -/
theorem claim_C2_amended_witness :
    c2wAggA = shaMk (encodePairs (pairsOf c2wNextA.entries))
    ∧ c2wNextA.entries.map (fun e => e.relPath) = c2wIdxA.files.map (fun r => r.relPath)
    ∧ c2wNextA.entries.Pairwise (fun a b => strLtb a.relPath b.relPath = true)
    ∧ (computeAggregateHash shaMk c2wDisk c2wIdxA none).map Prod.fst = some c2wAggA
    ∧ c2wAggA ≠ c2wAggB :=
  claim_C2_amended shaMk c2wDisk c2wDisk c2wIdxA c2wIdxA c2wIdxB none none
    c2wAggA c2wAggB c2wNextA c2wNextB 0 shaMk_injective rfl (by decide)
    (by decide) (List.Perm.refl _) (by decide) rfl (by decide) (by decide) (by decide)
    (by decide) (by decide)
    (by unfold nulFreePairs nulFree; decide) (by unfold nulFreePairs nulFree; decide)

/-- C3: a unit's cached result occupies its result slot (rather than none)
exactly when the persisted analysis cache exists with matching version,
include-tests flag, large-package-files threshold and module path, a cached
entry sits under the plan's relative path, and the fresh fingerprint is
non-empty and equal to the cached one; the unit's index is handed to the
per-unit analyzer (appears in the job list) exactly when its slot is none;
and when reuse fires the slot holds the cached package byte-for-byte. -/
theorem claim_C3 (prevState : Option CodemapState) (opts : Options) (modulePath : String)
    (plans : List packagePlan) (i : Nat) (plan : packagePlan)
    (hi : plans.get? i = some plan) :
    ((∃ pkg, (planCacheResults (cachedPackagesByPath prevState opts modulePath) plans).get? i
        = some (some pkg)) ↔
      (∃ st cache c, prevState = some st ∧ st.analysis = some cache ∧
        cache.version = analysisCacheVersionV2 ∧ cache.includeTests = opts.includeTests ∧
        cache.largePackageFiles = opts.largePackageFiles ∧ cache.modulePath = modulePath ∧
        lookupCachedByRel cache.packages plan.relativePath = some c ∧
        plan.fingerprint ≠ "" ∧ c.fingerprint = plan.fingerprint))
    ∧ (i ∈ planJobs (cachedPackagesByPath prevState opts modulePath) plans ↔
        (planCacheResults (cachedPackagesByPath prevState opts modulePath) plans).get? i
          = some none)
    ∧ (∀ st cache c, prevState = some st → st.analysis = some cache →
        cache.version = analysisCacheVersionV2 → cache.includeTests = opts.includeTests →
        cache.largePackageFiles = opts.largePackageFiles → cache.modulePath = modulePath →
        lookupCachedByRel cache.packages plan.relativePath = some c →
        plan.fingerprint ≠ "" → c.fingerprint = plan.fingerprint →
        (planCacheResults (cachedPackagesByPath prevState opts modulePath) plans).get? i
          = some (some c.package)) := by
  have hslot : (planCacheResults (cachedPackagesByPath prevState opts modulePath) plans).get? i
      = some (planReuse (cachedPackagesByPath prevState opts modulePath) plan) := by
    rw [planCacheResults, List.get?_map, hi]
    rfl
  refine ⟨?_, ?_, ?_⟩
  · rw [← planReuse_iff prevState opts modulePath plan]
    constructor
    · rintro ⟨pkg, hpkg⟩
      rw [hslot] at hpkg
      exact ⟨pkg, Option.some.inj hpkg⟩
    · rintro ⟨pkg, hpkg⟩
      exact ⟨pkg, by rw [hslot, hpkg]⟩
  · rw [planJobs_mem _ plans i plan hi, hslot]
    constructor
    · intro h; rw [h]
    · intro h; exact Option.some.inj h
  · intro st cache c hps han hv hit hlpf hmp hlook hfp hcfp
    rw [hslot, planReuse_value prevState opts modulePath plan st cache c hps han hv hit hlpf
      hmp hlook hfp hcfp]

/-- C3 (witness): a one-plan run against a matching persisted cache
exercises the reuse equivalence, the job-slot equivalence and the
byte-for-byte reuse value. -/
theorem claim_C3_witness :
    ((∃ pkg, (planCacheResults (cachedPackagesByPath (some c3State) c3Opts "m") c3Plans).get? 0
        = some (some pkg)) ↔
      (∃ st cache c, some c3State = some st ∧ st.analysis = some cache ∧
        cache.version = analysisCacheVersionV2 ∧ cache.includeTests = c3Opts.includeTests ∧
        cache.largePackageFiles = c3Opts.largePackageFiles ∧ cache.modulePath = "m" ∧
        lookupCachedByRel cache.packages c3Plan.relativePath = some c ∧
        c3Plan.fingerprint ≠ "" ∧ c.fingerprint = c3Plan.fingerprint))
    ∧ (0 ∈ planJobs (cachedPackagesByPath (some c3State) c3Opts "m") c3Plans ↔
        (planCacheResults (cachedPackagesByPath (some c3State) c3Opts "m") c3Plans).get? 0
          = some none)
    ∧ (∀ st cache c, some c3State = some st → st.analysis = some cache →
        cache.version = analysisCacheVersionV2 → cache.includeTests = c3Opts.includeTests →
        cache.largePackageFiles = c3Opts.largePackageFiles → cache.modulePath = "m" →
        lookupCachedByRel cache.packages c3Plan.relativePath = some c →
        c3Plan.fingerprint ≠ "" → c.fingerprint = c3Plan.fingerprint →
        (planCacheResults (cachedPackagesByPath (some c3State) c3Opts "m") c3Plans).get? 0
          = some (some c.package)) :=
  claim_C3 (some c3State) c3Opts "m" c3Plans 0 c3Plan rfl

theorem packageFingerprint_all (sha : HashFn) (entries : List StateEntry)
    (paths : List String) (hne : paths ≠ [])
    (hall : ∀ p ∈ paths, (memberHash entries p).isSome = true) :
    packageFingerprint sha paths (some entries) =
      sha (encodePairs (paths.map (fun p => (p, (memberHash entries p).getD "")))) := by
  simp only [packageFingerprint]
  rw [if_neg hne, fingerprintChunks_all entries paths hall]

theorem packageFingerprint_member_missing (sha : HashFn) (entries : List StateEntry)
    (paths : List String) (p : String) (hp : p ∈ paths) (hm : memberHash entries p = none) :
    packageFingerprint sha paths (some entries) = "" := by
  simp only [packageFingerprint]
  by_cases hne : paths = []
  · rw [if_pos hne]
  · rw [if_neg hne, fingerprintChunks_missing entries paths p hp hm]

theorem packageFingerprint_empty (sha : HashFn) (paths : List String)
    (entriesByRel : Option (List StateEntry)) (h : paths = []) :
    packageFingerprint sha paths entriesByRel = "" := by
  cases entriesByRel with
  | none => rfl
  | some entries =>
    simp only [packageFingerprint]
    rw [if_pos h]

/-- C4: every analysis unit built by the shell planner has its member list
sorted; its fingerprint is exactly packageFingerprint over that sorted
member list; when the unit is non-empty and every member has a usable
cached content hash the fingerprint is the digest (under the abstract
sha256) of the null-separated (relativePath, contentHash) pair stream in
member order; and whenever the unit has no members, some member lacks a
content hash, or there is no entry map at all, the fingerprint is the
empty string. -/
theorem claim_C4 (sha : HashFn) (pkgRootRel : String → String) (root : String)
    (files : List FileRecord) (includeTests : Bool) (entriesByRel : Option (List StateEntry))
    (plan : packagePlan)
    (hplan : plan ∈ buildShellPackagePlans sha pkgRootRel root files includeTests entriesByRel) :
    plan.fileRelPaths.Pairwise (fun a b => strLeb a b = true)
    ∧ plan.fingerprint = packageFingerprint sha plan.fileRelPaths entriesByRel
    ∧ (∀ entries, entriesByRel = some entries → plan.fileRelPaths ≠ [] →
        (∀ p ∈ plan.fileRelPaths, (memberHash entries p).isSome = true) →
        plan.fingerprint = sha (encodePairs (plan.fileRelPaths.map
          (fun p => (p, (memberHash entries p).getD "")))))
    ∧ (∀ entries p, entriesByRel = some entries → p ∈ plan.fileRelPaths →
        memberHash entries p = none → plan.fingerprint = "")
    ∧ (plan.fileRelPaths = [] → plan.fingerprint = "")
    ∧ (entriesByRel = none → plan.fingerprint = "") := by
  simp only [buildShellPackagePlans, List.mem_map] at hplan
  obtain ⟨rel, hrel, hpeq⟩ := hplan
  subst hpeq
  refine ⟨sortStrings_pairwise _, rfl, ?_, ?_, ?_, ?_⟩
  · intro entries hsome hne hall
    rw [hsome] at hall ⊢
    exact packageFingerprint_all sha entries _ hne hall
  · intro entries p hsome hp hm
    rw [hsome]
    exact packageFingerprint_member_missing sha entries _ p hp hm
  · intro hnil
    exact packageFingerprint_empty sha _ entriesByRel hnil
  · intro hnone
    rw [hnone]
    rfl

/-- C4 (witness): a two-file root unit with both content hashes cached
instantiates the sortedness, digest and empty-string conjuncts. -/
theorem claim_C4_witness :
    c4Plan.fileRelPaths.Pairwise (fun a b => strLeb a b = true)
    ∧ c4Plan.fingerprint = packageFingerprint shaMk c4Plan.fileRelPaths (some c4Entries)
    ∧ (∀ entries, some c4Entries = some entries → c4Plan.fileRelPaths ≠ [] →
        (∀ p ∈ c4Plan.fileRelPaths, (memberHash entries p).isSome = true) →
        c4Plan.fingerprint = shaMk (encodePairs (c4Plan.fileRelPaths.map
          (fun p => (p, (memberHash entries p).getD "")))))
    ∧ (∀ entries p, some c4Entries = some entries → p ∈ c4Plan.fileRelPaths →
        memberHash entries p = none → c4Plan.fingerprint = "")
    ∧ (c4Plan.fileRelPaths = [] → c4Plan.fingerprint = "")
    ∧ (some c4Entries = none → c4Plan.fingerprint = "") :=
  claim_C4 shaMk c4RootRel "/r" c4Files false (some c4Entries) c4Plan (by decide)

/-- C5: with a cold in-process memo, a state or analysis-cache file whose
bytes fail to parse, or whose parsed version differs from the engine's
current version, reads exactly like an absent file: the result is ok with
no state (never an error), for both readState and readAnalysisCache. -/
theorem claim_C5 (bytes1 bytes2 bytesA1 bytesA2 : List Char)
    (parse1 parse2 : List Char → Option CodemapState)
    (parseA1 parseA2 : List Char → Option AnalysisCache)
    (st : CodemapState) (cache : AnalysisCache)
    (h1 : parse1 bytes1 = none)
    (h2 : parse2 bytes2 = some st) (hv : st.version ≠ codemapStateVersion)
    (hA1 : parseA1 bytesA1 = none)
    (hA2 : parseA2 bytesA2 = some cache) (hvA : cache.version ≠ analysisCacheVersionV2) :
    readState none (some bytes1) parse1 = .ok none
    ∧ readState none (some bytes2) parse2 = .ok none
    ∧ readState none none parse1 = .ok none
    ∧ readAnalysisCache none (some bytesA1) parseA1 = .ok none
    ∧ readAnalysisCache none (some bytesA2) parseA2 = .ok none
    ∧ readAnalysisCache none none parseA1 = .ok none := by
  refine ⟨?_, ?_, rfl, ?_, ?_, rfl⟩
  · simp only [readState, h1]
  · simp only [readState, h2]
    rw [if_pos hv]
  · simp only [readAnalysisCache, hA1]
  · simp only [readAnalysisCache, hA2]
    rw [if_pos hvA]

/-- C5 (witness): an always-failing parser and a parser yielding a
stale-versioned record both read as an absent cache. -/
theorem claim_C5_witness :
    readState none (some []) (fun _ => none) = .ok none
    ∧ readState none (some []) (fun _ => some c5BadState) = .ok none
    ∧ readState none none (fun _ => none) = .ok none
    ∧ readAnalysisCache none (some []) (fun _ => none) = .ok none
    ∧ readAnalysisCache none (some []) (fun _ => some c5BadCache) = .ok none
    ∧ readAnalysisCache none none (fun _ => none) = .ok none :=
  claim_C5 [] [] [] [] (fun _ => none) (fun _ => some c5BadState)
    (fun _ => none) (fun _ => some c5BadCache) c5BadState c5BadCache
    rfl rfl (by decide) rfl rfl (by decide)

/-- C6 (code bug): the walk's exclusion predicate does prune dot-named
directories and the names vendor, testdata and workspace (shown on a
vendor subtree: no files indexed, no directory entry recorded), but it
does NOT recognise node_modules — a node_modules directory survives the
walk and the Go file inside it is visited and indexed, contradicting the
documented exclusion list. -/
theorem claim_C6 :
    isExcludedDir "node_modules" = false
    ∧ (buildFileIndexModel [goSpec] 1 [.dir "node_modules" 2 [.file "a.go" 1 10]]).files.map
        (fun r => r.relPath) = ["node_modules/a.go"]
    ∧ (buildFileIndexModel [goSpec] 1 [.dir "node_modules" 2 [.file "a.go" 1 10]]).dirs =
        [⟨".", 1⟩, ⟨"node_modules", 2⟩]
    ∧ (isExcludedDir ".git" && isExcludedDir "vendor" && isExcludedDir "testdata" &&
        isExcludedDir "workspace") = true
    ∧ (buildFileIndexModel [goSpec] 1 [.dir "vendor" 2 [.file "a.go" 1 10]]).files = []
    ∧ (buildFileIndexModel [goSpec] 1 [.dir "vendor" 2 [.file "a.go" 1 10]]).dirs = [⟨".", 1⟩] := by
  decide

/-- C7: when the candidate path matches no registered language suffix and
shell is enabled, the shebang fallback classifies a dot-free basename as
shell exactly when the first line's resolved shebang program (after env
indirection and flag skipping) is sh or bash; any other program, an absent
shebang, or a dotted basename yields no language match. -/
theorem claim_C7 (disk : String → Option (List Char)) (specs : List LanguageSpec)
    (absPath candidatePath : String) (content : List Char)
    (hshell : languageEnabled specs languageShell = true)
    (hnosuffix : matchLanguageForPath candidatePath specs = none)
    (hdisk : disk absPath = some content) :
    (∀ program, strContains (toLowerStr (goBasename candidatePath)) "." = false →
        readShebangProgram (some content) = some (some program) →
        (program = "sh" ∨ program = "bash") →
        detectLanguageForFile disk absPath candidatePath specs =
          some (some ⟨languageShell, isShellTestPathLike (toLowerStr (goBasename candidatePath))⟩))
    ∧ (∀ program, strContains (toLowerStr (goBasename candidatePath)) "." = false →
        readShebangProgram (some content) = some (some program) →
        program ≠ "sh" → program ≠ "bash" →
        detectLanguageForFile disk absPath candidatePath specs = some none)
    ∧ (strContains (toLowerStr (goBasename candidatePath)) "." = false →
        readShebangProgram (some content) = some none →
        detectLanguageForFile disk absPath candidatePath specs = some none)
    ∧ (strContains (toLowerStr (goBasename candidatePath)) "." = true →
        detectLanguageForFile disk absPath candidatePath specs = some none) := by
  refine ⟨?_, ?_, ?_, ?_⟩
  · intro program hdot hsheb hps
    simp only [detectLanguageForFile, hnosuffix, hshell, Bool.not_true, Bool.false_eq_true,
      if_false, hdot, hdisk, hsheb]
    rcases hps with rfl | rfl
    · rfl
    · rfl
  · intro program hdot hsheb h1 h2
    simp only [detectLanguageForFile, hnosuffix, hshell, Bool.not_true, Bool.false_eq_true,
      if_false, hdot, hdisk, hsheb]
    rw [if_neg (by simp [h1, h2])]
  · intro hdot hsheb
    simp only [detectLanguageForFile, hnosuffix, hshell, Bool.not_true, Bool.false_eq_true,
      if_false, hdot, hdisk, hsheb]
  · intro hdot
    simp only [detectLanguageForFile, hnosuffix, hshell, Bool.not_true, Bool.false_eq_true,
      if_false, hdot, if_true]

/-- C7 (witness): an extension-less script served by a concrete disk
oracle instantiates all four shebang-fallback branches. -/
theorem claim_C7_witness :
    (∀ program, strContains (toLowerStr (goBasename "myscript")) "." = false →
        readShebangProgram (some c7Content) = some (some program) →
        (program = "sh" ∨ program = "bash") →
        detectLanguageForFile c7Disk "/s/myscript" "myscript" [shellSpec] =
          some (some ⟨languageShell, isShellTestPathLike (toLowerStr (goBasename "myscript"))⟩))
    ∧ (∀ program, strContains (toLowerStr (goBasename "myscript")) "." = false →
        readShebangProgram (some c7Content) = some (some program) →
        program ≠ "sh" → program ≠ "bash" →
        detectLanguageForFile c7Disk "/s/myscript" "myscript" [shellSpec] = some none)
    ∧ (strContains (toLowerStr (goBasename "myscript")) "." = false →
        readShebangProgram (some c7Content) = some none →
        detectLanguageForFile c7Disk "/s/myscript" "myscript" [shellSpec] = some none)
    ∧ (strContains (toLowerStr (goBasename "myscript")) "." = true →
        detectLanguageForFile c7Disk "/s/myscript" "myscript" [shellSpec] = some none) :=
  claim_C7 c7Disk [shellSpec] "/s/myscript" "myscript" c7Content (by decide) (by decide) rfl

/-- C8: a writeState or writeAnalysisCache call within 100ms of the
previous flush for the path refreshes only the in-process memo and leaves
the disk and the flush clock untouched; a call at or beyond the interval,
or the first call for the path, marshals the record (the state stripped of
its analysis cache), writes it, leaves no temporary file behind and resets
the flush clock to now. -/
theorem claim_C8 (marshal : CodemapState → String) (marshalA : AnalysisCache → String)
    (s : CodemapState) (cache : AnalysisCache) (now1 now2 now3 t : Int)
    (dp dt dpA dtA : Option String)
    (hin : now1 - t < writeFlushIntervalNanos)
    (hout : writeFlushIntervalNanos ≤ now2 - t)
    (hne : cache.packages ≠ []) :
    writeState marshal (some s) now1 (some t) dp dt =
      ⟨true, some (stripAnalysis s), false, some t, dp, dt⟩
    ∧ writeState marshal (some s) now2 (some t) dp dt =
      ⟨true, some (stripAnalysis s), true, some now2, some (marshal (stripAnalysis s)), none⟩
    ∧ writeState marshal (some s) now3 none dp dt =
      ⟨true, some (stripAnalysis s), true, some now3, some (marshal (stripAnalysis s)), none⟩
    ∧ writeAnalysisCache marshalA (some cache) now1 (some t) dpA dtA =
      ⟨true, some cache, false, false, some t, dpA, dtA⟩
    ∧ writeAnalysisCache marshalA (some cache) now2 (some t) dpA dtA =
      ⟨true, some cache, false, true, some now2, some (marshalA cache), none⟩
    ∧ writeAnalysisCache marshalA (some cache) now3 none dpA dtA =
      ⟨true, some cache, false, true, some now3, some (marshalA cache), none⟩ := by
  refine ⟨?_, ?_, rfl, ?_, ?_, ?_⟩
  · simp only [writeState]
    rw [if_pos hin]
  · simp only [writeState]
    rw [if_neg (not_lt.mpr hout)]
  · simp only [writeAnalysisCache]
    rw [if_neg hne, if_pos hin]
  · simp only [writeAnalysisCache]
    rw [if_neg hne, if_neg (not_lt.mpr hout)]
  · simp only [writeAnalysisCache]
    rw [if_neg hne]

/-- C8 (witness): a second call 10ns after a flush is debounced; calls
100ms later or with no flush record write through. -/
theorem claim_C8_witness :
    writeState (fun _ => "J") (some c8State) 10 (some 0) (some "old") none =
      ⟨true, some (stripAnalysis c8State), false, some 0, some "old", none⟩
    ∧ writeState (fun _ => "J") (some c8State) 200000000 (some 0) (some "old") none =
      ⟨true, some (stripAnalysis c8State), true, some 200000000,
        some ((fun _ => "J") (stripAnalysis c8State)), none⟩
    ∧ writeState (fun _ => "J") (some c8State) 5 none (some "old") none =
      ⟨true, some (stripAnalysis c8State), true, some 5,
        some ((fun _ => "J") (stripAnalysis c8State)), none⟩
    ∧ writeAnalysisCache (fun _ => "K") (some c8Cache) 10 (some 0) (some "oldA") none =
      ⟨true, some c8Cache, false, false, some 0, some "oldA", none⟩
    ∧ writeAnalysisCache (fun _ => "K") (some c8Cache) 200000000 (some 0) (some "oldA") none =
      ⟨true, some c8Cache, false, true, some 200000000, some ((fun _ => "K") c8Cache), none⟩
    ∧ writeAnalysisCache (fun _ => "K") (some c8Cache) 5 none (some "oldA") none =
      ⟨true, some c8Cache, false, true, some 5, some ((fun _ => "K") c8Cache), none⟩ :=
  claim_C8 (fun _ => "J") (fun _ => "K") c8State c8Cache 10 200000000 5 0
    (some "old") none (some "oldA") none (by decide) (by decide) (by decide)

/-- C9 (counterexample): the claim "any two file indexes over byte-identical
contents differing only in modification times yield identical aggregate
hashes" is false as stated.  Against a persisted state whose per-file
metadata matches the first index (so the recorded aggregate is reused
verbatim, here a bogus value) but not the second (where the bumped modtime
forces a true re-hash), computeAggregateHashOnly returns different
aggregates, although the cached content hash agrees with the disk bytes
and the two indexes differ only in modification time. -/
theorem claim_C9_counterexample :
    computeAggregateHashOnly shaMk c9Disk c9Idx1 (some c9Prev) = some "bogus"
    ∧ computeAggregateHashOnly shaMk c9Disk c9Idx2 (some c9Prev) =
        some (shaMk (encodePairs [("f", "x")]))
    ∧ ("bogus" : String) ≠ shaMk (encodePairs [("f", "x")])
    ∧ (c9Prev.entries.all (fun e =>
        decide (some e.contentHash = (c9Disk e.relPath).map shaMk))) = true
    ∧ c9Idx1.files.map (fun r => (r.relPath, r.absPath, r.size, r.language)) =
        c9Idx2.files.map (fun r => (r.relPath, r.absPath, r.size, r.language)) := by
  decide

/-- C9 (amended): when additionally the persisted per-file hashes are
consistent with the disk bytes (any cached non-empty hash for a matching
path and size equals the digest of that file's contents) and the recorded
aggregate is the digest of the persisted entry pairs, the claim holds:
every file is present on disk, each re-hash reproduces the cached value,
and both indexes — equal up to modification times — yield the same
canonical aggregate, the digest of the per-file content digests. -/
theorem claim_C9_amended (sha : HashFn) (disk : String → Option (List Char))
    (idx₁ idx₂ : FileIndex) (p : CodemapState)
    (hsame : List.Forall₂ (fun r₁ r₂ =>
      r₁.relPath = r₂.relPath ∧ r₁.absPath = r₂.absPath ∧ r₁.size = r₂.size)
      idx₁.files idx₂.files)
    (hdisk : ∀ r ∈ idx₁.files, (disk r.absPath).isSome)
    (hcons : ∀ e ∈ p.entries, ∀ r ∈ idx₁.files, e.relPath = r.relPath → e.size = r.size →
      e.contentHash ≠ "" → e.contentHash = contentHashOf sha disk r)
    (hagg : p.aggregateHash = sha (encodePairs (pairsOf p.entries))) :
    computeAggregateHashOnly sha disk idx₁ (some p) =
      some (sha (encodePairs (idx₁.files.map (fun r => (r.relPath, contentHashOf sha disk r)))))
    ∧ computeAggregateHashOnly sha disk idx₂ (some p) =
      computeAggregateHashOnly sha disk idx₁ (some p) := by
  have h1 := computeAggregateHashOnly_canonical sha disk idx₁ p hdisk hcons hagg
  have hdisk₂ : ∀ r ∈ idx₂.files, (disk r.absPath).isSome := by
    intro r₂ hr₂
    obtain ⟨r₁, hr₁, _, habs, _⟩ := forall₂_mem_right hsame r₂ hr₂
    rw [← habs]
    exact hdisk r₁ hr₁
  have hcons₂ : ∀ e ∈ p.entries, ∀ r ∈ idx₂.files, e.relPath = r.relPath → e.size = r.size →
      e.contentHash ≠ "" → e.contentHash = contentHashOf sha disk r := by
    intro e he r₂ hr₂ hrel hsz hch
    obtain ⟨r₁, hr₁, hrel₁, habs₁, hsz₁⟩ := forall₂_mem_right hsame r₂ hr₂
    have hc := hcons e he r₁ hr₁ (hrel.trans hrel₁.symm) (hsz.trans hsz₁.symm) hch
    rw [hc, contentHashOf, contentHashOf, habs₁]
  have h2 := computeAggregateHashOnly_canonical sha disk idx₂ p hdisk₂ hcons₂ hagg
  have hmap : ∀ (l₁ l₂ : List FileRecord), List.Forall₂ (fun r₁ r₂ =>
      r₁.relPath = r₂.relPath ∧ r₁.absPath = r₂.absPath ∧ r₁.size = r₂.size) l₁ l₂ →
      l₂.map (fun r => (r.relPath, contentHashOf sha disk r)) =
        l₁.map (fun r => (r.relPath, contentHashOf sha disk r)) := by
    intro l₁ l₂ h
    induction h with
    | nil => rfl
    | @cons a b l₁ l₂ hab htail ih =>
      obtain ⟨hrel, habs, _⟩ := hab
      simp only [List.map_cons, ih]
      rw [← hrel, contentHashOf, contentHashOf, ← habs]
  exact ⟨h1, by rw [h2, h1, hmap _ _ hsame]⟩

/-- C9 (amended, witness): a consistent single-file state, first index with
the recorded modtime, second index with the modtime bumped: both reads
return the canonical digest. -/
theorem claim_C9_amended_witness :
    computeAggregateHashOnly shaMk c9Disk c9Idx1 (some c9wPrev) =
      some (shaMk (encodePairs (c9Idx1.files.map
        (fun r => (r.relPath, contentHashOf shaMk c9Disk r)))))
    ∧ computeAggregateHashOnly shaMk c9Disk c9Idx2 (some c9wPrev) =
      computeAggregateHashOnly shaMk c9Disk c9Idx1 (some c9wPrev) :=
  claim_C9_amended shaMk c9Disk c9Idx1 c9Idx2 c9wPrev
    (List.Forall₂.cons (by decide) List.Forall₂.nil) (by decide) (by decide) (by decide)

/-- C10: each analyzer's updateAnalysisCache call replaces the shared next
state's analysis field wholesale with a cache scoped to its own module
path and results; hence after a sequential multi-language run the surviving
analysis cache is exactly the last analyzer's — earlier analyzers' cached
units are discarded. -/
theorem claim_C10 (opts : Options) (s : CodemapState) (modulePath : String)
    (plans : List packagePlan) (results : List (Option Package))
    (runs : List AnalyzerRun) (lastRun : AnalyzerRun) :
    updateAnalysisCache (some s) opts modulePath plans results =
      some { s with analysis := some (AnalysisCache.mk analysisCacheVersionV2
        opts.includeTests opts.largePackageFiles modulePath
        (collectCachedPackages plans results)) }
    ∧ ∃ s', runAnalyzersSequential opts (runs ++ [lastRun]) (some s) = some s' ∧
        s'.analysis = some (AnalysisCache.mk analysisCacheVersionV2 opts.includeTests
          opts.largePackageFiles lastRun.modulePath
          (collectCachedPackages lastRun.plans lastRun.results)) := by
  refine ⟨rfl, ?_⟩
  obtain ⟨s₀, hs₀⟩ := runAnalyzersSequential_some opts runs s
  refine ⟨{ s₀ with analysis := some (AnalysisCache.mk analysisCacheVersionV2
    opts.includeTests opts.largePackageFiles lastRun.modulePath
    (collectCachedPackages lastRun.plans lastRun.results)) }, ?_, rfl⟩
  rw [runAnalyzersSequential, List.foldl_append]
  rw [runAnalyzersSequential] at hs₀
  rw [hs₀]
  rfl
